import Mathlib

/-!
Verification development for the PromptLens reverse proxy
(`src/promptlens/proxy_app.py`, `logging_jsonl.py`, `config.py`).

The Python code is shallowly embedded: parsed JSON values become the
inductive type `J` (Python `None` and JSON `null` are identified as
`J.null`, exactly as `json.loads` identifies them); Python dicts become
insertion-ordered association lists; byte strings become `List Nat`;
fallible Python code returns `Except PyErr`.  Impure inputs (current
time, upstream responses, filesystem contents) are passed explicitly.
-/

namespace PromptLens

/-- Python exception classes that the embedded code can raise. -/
inductive PyErr where
  | typeError
  | attributeError
  deriving DecidableEq, Repr

/-- A parsed JSON value / Python object as produced by `json.loads`.
Numbers are modelled as integers (the claims touch no float payloads);
objects keep key insertion order, as Python dicts do. -/
inductive J where
  | null
  | bool (b : Bool)
  | num (n : Int)
  | str (s : String)
  | arr (xs : List J)
  | obj (kvs : List (String × J))

namespace J

/-- Python truthiness of a decoded JSON value (`if x:`). -/
def truthy : J → Bool
  | .null => false
  | .bool b => b
  | .num n => n != 0
  | .str s => s ≠ ""
  | .arr xs => !xs.isEmpty
  | .obj kvs => !kvs.isEmpty

/-- `isinstance(x, dict)`. -/
def isDict : J → Bool
  | .obj _ => true
  | _ => false

/-- `isinstance(x, list)`. -/
def isArr : J → Bool
  | .arr _ => true
  | _ => false

end J

/-- First-match association-list lookup; Python dicts have unique keys so
this is exactly `d[k]` / `d.get(k)` presence. -/
def lookupJ : List (String × J) → String → Option J
  | [], _ => none
  | p :: rest, k => if p.1 = k then some p.2 else lookupJ rest k

/-- `k in d` for a dict value (`False` on any non-dict, matching the
guarded uses in the source). -/
def objMem (j : J) (k : String) : Bool :=
  match j with
  | .obj kvs => (lookupJ kvs k).isSome
  | _ => false

/-- `d.get(k)` — `None` when the key is absent or the value is a non-dict. -/
def getKey (j : J) (k : String) : Option J :=
  match j with
  | .obj kvs => lookupJ kvs k
  | _ => none

/-- `d.get(k, default)`. -/
def getD (j : J) (k : String) (d : J) : J :=
  (getKey j k).getD d

/-- `d[k] = v` on a dict: overwrite in place if present, else append,
preserving Python dict insertion order.  Non-dicts are untouched (the
source only assigns into dicts). -/
def setKV : List (String × J) → String → J → List (String × J)
  | [], k, v => [(k, v)]
  | p :: rest, k, v =>
      if p.1 = k then (k, v) :: rest else p :: setKV rest k v

/-- `d[k] = v` lifted to `J`. -/
def objSet (j : J) (k : String) (v : J) : J :=
  match j with
  | .obj kvs => .obj (setKV kvs k v)
  | other => other

/-- Hexadecimal digit used by the `\u00XX` escapes of `json.dumps`. -/
def hexDigit (n : Nat) : String :=
  if n < 10 then toString n
  else if n = 10 then "a" else if n = 11 then "b" else if n = 12 then "c"
  else if n = 13 then "d" else if n = 14 then "e" else "f"

/-- Escaping of one character inside a JSON string, as `json.dumps`
with `ensure_ascii=False` performs it. -/
def escChar (c : Char) : String :=
  if c = Char.ofNat 34 then "\\\""
  else if c = '\\' then "\\\\"
  else if c = '\n' then "\\n"
  else if c = '\r' then "\\r"
  else if c = '\t' then "\\t"
  else if c.toNat = 8 then "\\b"
  else if c.toNat = 12 then "\\f"
  else if c.toNat < 32 then "\\u00" ++ hexDigit (c.toNat / 16) ++ hexDigit (c.toNat % 16)
  else String.singleton c

/-- JSON string literal encoding. -/
def encStr (s : String) : String :=
  "\"" ++ String.join (s.toList.map escChar) ++ "\""

mutual

/-- `json.dumps(x, ensure_ascii=False, separators=(",", ":"))`. -/
def jsonEnc : J → String
  | .null => "null"
  | .bool b => cond b "true" "false"
  | .num n => toString n
  | .str s => encStr s
  | .arr xs => "[" ++ jsonEncList xs ++ "]"
  | .obj kvs => "\x7b" ++ jsonEncObj kvs ++ "\x7d"

/-- Comma-joined encoding of array elements. -/
def jsonEncList : List J → String
  | [] => ""
  | [x] => jsonEnc x
  | x :: y :: rest => jsonEnc x ++ "," ++ jsonEncList (y :: rest)

/-- Comma-joined encoding of object members. -/
def jsonEncObj : List (String × J) → String
  | [] => ""
  | [kv] => encStr kv.1 ++ ":" ++ jsonEnc kv.2
  | kv :: p :: rest => encStr kv.1 ++ ":" ++ jsonEnc kv.2 ++ "," ++ jsonEncObj (p :: rest)

end

/-- UTF-8 encoding of one scalar value (code point), as `str.encode("utf-8")`. -/
def utf8Char (c : Char) : List Nat :=
  let n := c.toNat
  if n < 0x80 then [n]
  else if n < 0x800 then [0xC0 + n / 64, 0x80 + n % 64]
  else if n < 0x10000 then [0xE0 + n / 4096, 0x80 + (n / 64) % 64, 0x80 + n % 64]
  else [0xF0 + n / 262144, 0x80 + (n / 4096) % 64, 0x80 + (n / 64) % 64, 0x80 + n % 64]

/-- `s.encode("utf-8")` as a byte list. -/
def utf8Str (s : String) : List Nat :=
  s.toList.foldr (fun c acc => utf8Char c ++ acc) []

/-- The UTF-8 bytes of the compact JSON encoding of a value
(`json.dumps(...).encode("utf-8")`). -/
def jsonEncBytes (j : J) : List Nat :=
  utf8Str (jsonEnc j)

/-- Python `str(x)` for decoded JSON scalars (the source applies it to
tool-call `index` values).  Containers are rendered structurally; the
quoting subtleties of `repr` on nested strings are not reproduced, no
claim depends on them. -/
def pyStr : J → String
  | .null => "None"
  | .bool true => "True"
  | .bool false => "False"
  | .num n => toString n
  | .str s => s
  | .arr _ => "<list>"
  | .obj _ => "<dict>"

/-- `s.lower()`; request paths are ASCII so ASCII case folding suffices. -/
def strLower (s : String) : String :=
  String.mk (s.toList.map Char.toLower)

/-- Substring occurrence test over character lists (Python `needle in hay`). -/
def listHasInfix (hay needle : List Char) : Bool :=
  match hay with
  | [] => needle.isEmpty
  | _ :: t => needle.isPrefixOf hay || listHasInfix t needle

/-- Python `needle in hay` on strings. -/
def strContains (hay needle : String) : Bool :=
  listHasInfix hay.toList needle.toList

/-- `_get_content_type(request_path, request_json)`: the API family.
`J.null` stands for Python `None` (an undecodable body), causing the
early `"unknown"` return just like any non-dict. -/
def getContentType (requestPath : String) (requestJson : J) : String :=
  if !requestJson.isDict then "unknown"
  else
    let lowered := strLower requestPath
    if strContains lowered "/chat/completions" then "chat"
    else if strContains lowered "/completions" then "completion"
    else if strContains lowered "/embeddings" then "embedding"
    else if strContains lowered "/images/generations" || strContains lowered "/images" then "image"
    else if strContains lowered "/responses" then "response"
    else "unknown"

/-- Modelled from the spec: the API family as §4.D states it — derived
from the path alone by case-insensitive substring matching, first hit
wins, in the listed order (patterns carry the leading slash of the
URL-path segments they name). -/
def specFamily (path : String) : String :=
  let lowered := strLower path
  if strContains lowered "/chat/completions" then "chat"
  else if strContains lowered "/completions" then "completion"
  else if strContains lowered "/embeddings" then "embedding"
  else if strContains lowered "/images/generations" || strContains lowered "/images" then "image"
  else if strContains lowered "/responses" then "response"
  else "unknown"

/-- `_extract_prompt(request_path, request_json)`. -/
def extractPrompt (requestPath : String) (requestJson : J) : J :=
  if !requestJson.isDict then .null
  else
    let lowered := strLower requestPath
    if strContains lowered "/chat/completions" then getD requestJson "messages" .null
    else if strContains lowered "/responses" then
      if objMem requestJson "input" then getD requestJson "input" .null
      else if objMem requestJson "messages" then getD requestJson "messages" .null
      else .null
    else if strContains lowered "/completions" then getD requestJson "prompt" .null
    else if strContains lowered "/embeddings" then getD requestJson "input" .null
    else if strContains lowered "/images" then getD requestJson "prompt" .null
    else if objMem requestJson "messages" then getD requestJson "messages" .null
    else if objMem requestJson "input" then getD requestJson "input" .null
    else if objMem requestJson "prompt" then getD requestJson "prompt" .null
    else .null

/-- `_extract_user_input(request_path, request_json)`: `none` for a
non-dict body, else the `{role, type, content}` record. -/
def extractUserInput (requestPath : String) (requestJson : J) : Option J :=
  if !requestJson.isDict then none
  else
    some (.obj [("role", .str "user"),
                ("type", .str (getContentType requestPath requestJson)),
                ("content", extractPrompt requestPath requestJson)])

/-- Python `len(x)`: defined on sequences and mappings, `TypeError`
otherwise (matching `len(data[0].get("embedding", []))`). -/
def pyLen : J → Except PyErr Nat
  | .str s => .ok s.length
  | .arr xs => .ok xs.length
  | .obj kvs => .ok kvs.length
  | _ => .error .typeError

/-- The `{role, type, content, tool_calls?, refusal?}` assistant record
of `_extract_model_response`; the optional keys are inserted only when
truthy, in the source's insertion order. -/
def assistantRecord (ty : String) (content : J) (toolCalls refusal : J) : J :=
  .obj ([("role", .str "assistant"), ("type", .str ty), ("content", content)]
    ++ (if toolCalls.truthy then [("tool_calls", toolCalls)] else [])
    ++ (if refusal.truthy then [("refusal", refusal)] else []))

/-- `_extract_model_response(response_json, request_path)`.  The
embeddings branch can raise: `data[0].get(...)` is an `AttributeError`
when `data[0]` is not a dict, and `len` a `TypeError` on a sizeless
value — these escape the function exactly as in the source. -/
def extractModelResponse (responseJson : J) (requestPath : String) :
    Except PyErr (Option J) :=
  if !responseJson.isDict then .ok none
  else
    let contentType := getContentType requestPath responseJson
    let lowered := strLower requestPath
    if strContains lowered "/chat/completions" then
      let choices := getD responseJson "choices" (.arr [])
      let msgFields :=
        match choices with
        | .arr (firstChoice :: _) =>
            if firstChoice.isDict then
              match getKey firstChoice "message" with
              | some message =>
                  if message.isDict then
                    (getD message "content" .null,
                     getD message "tool_calls" .null,
                     getD message "refusal" .null)
                  else (.null, .null, .null)
              | none => (.null, .null, .null)
            else (.null, .null, .null)
        | _ => (.null, .null, .null)
      .ok (some (assistantRecord contentType msgFields.1 msgFields.2.1 msgFields.2.2))
    else if strContains lowered "/completions" then
      let choices := getD responseJson "choices" (.arr [])
      let content :=
        match choices with
        | .arr (firstChoice :: _) =>
            if firstChoice.isDict then getD firstChoice "text" .null else .null
        | _ => .null
      .ok (some (assistantRecord contentType content .null .null))
    else if strContains lowered "/embeddings" then
      let data := getD responseJson "data" (.arr [])
      match data with
      | .arr (d0 :: _) =>
          if d0.isDict then
            match pyLen (getD d0 "embedding" (.arr [])) with
            | .ok n =>
                .ok (some (assistantRecord contentType
                  (.str ("embedding with " ++ toString n ++ " dimensions")) .null .null))
            | .error e => .error e
          else .error .attributeError
      | _ => .ok (some (assistantRecord contentType .null .null .null))
    else if strContains lowered "/images" then
      let data := getD responseJson "data" (.arr [])
      let content :=
        match data with
        | .arr (firstItem :: _) =>
            if firstItem.isDict then
              J.obj [("url", getD firstItem "url" .null),
                     ("revised_prompt", getD firstItem "revised_prompt" .null)]
            else .null
        | _ => .null
      .ok (some (assistantRecord contentType content .null .null))
    else
      let content :=
        if objMem responseJson "content" then getD responseJson "content" .null
        else if objMem responseJson "text" then getD responseJson "text" .null
        else if objMem responseJson "output" then getD responseJson "output" .null
        else if objMem responseJson "result" then getD responseJson "result" .null
        else .null
      .ok (some (assistantRecord contentType content .null .null))

/-- `_should_stream(request_json)`: a dict body with `stream` being
exactly the boolean `True`. -/
def shouldStream (requestJson : J) : Bool :=
  match getKey requestJson "stream" with
  | some (.bool true) => true
  | _ => false

/-- `truncate_bytes(data, max_bytes)` from `logging_jsonl.py`;
`max_bytes` is an unvalidated Python int, hence `Int`. -/
def truncateBytes (data : List Nat) (maxBytes : Int) : List Nat × Bool :=
  if maxBytes ≤ 0 then ([], true)
  else if (data.length : Int) ≤ maxBytes then (data, false)
  else (data.take maxBytes.toNat, true)

/-- The value stored in a log event: either the record itself or, after
truncation, the string obtained by lossily decoding a byte prefix of
its JSON encoding (represented by those pre-decode bytes, which is what
the size claims measure). -/
inductive LogValue where
  | whole (j : J)
  | truncStr (bytes : List Nat)

/-- `_prompt_for_log(prompt=…, max_bytes=…)`.  `J.null` is Python
`None`, the early-return case.  The source's `json.dumps` fallback is
unreachable here: every value passed in is decoded JSON, which always
encodes. -/
def promptForLog (prompt : J) (maxBytes : Int) : Option LogValue × Bool :=
  match prompt with
  | .null => (none, false)
  | p =>
      let encoded := jsonEncBytes p
      if (encoded.length : Int) ≤ maxBytes then (some (.whole p), false)
      else (some (.truncStr (truncateBytes encoded maxBytes).1), true)

/-- `x is None` after `d.get(k)` (JSON `null` and a missing key are the
same Python `None`). -/
def J.isNull : J → Bool
  | .null => true
  | _ => false

/-- The fresh in-progress tool call `{"index": index, "function": {}}`. -/
def newToolCall (index : J) : J :=
  .obj [("index", index), ("function", .obj [])]

/-- State of `_parse_streaming_chat_completion`: the `content_parts`
accumulator and the insertion-ordered `tool_calls_parts` dict. -/
structure PState where
  parts : List J
  tcParts : List (String × J)

/-- Processing of a single element of a `delta.tool_calls` array.
String concatenation of `arguments` raises `TypeError` when either side
is not a `str`, as Python `+` does. -/
def processTc (tcMap : List (String × J)) (tc : J) : Except PyErr (List (String × J)) :=
  if !tc.isDict then .ok tcMap
  else
    let index := getD tc "index" .null
    if index.isNull then .ok tcMap
    else
      let idxStr := pyStr index
      let tcMap1 := if (lookupJ tcMap idxStr).isSome then tcMap
                    else tcMap ++ [(idxStr, newToolCall index)]
      let tcPart := (lookupJ tcMap1 idxStr).getD (.obj [])
      let tcPart := if objMem tc "id" && (getD tc "id" .null).truthy
                    then objSet tcPart "id" (getD tc "id" .null) else tcPart
      let tcPart := if objMem tc "type"
                    then objSet tcPart "type" (getD tc "type" .null) else tcPart
      match getKey tc "function" with
      | some fn =>
          if fn.isDict then
            let tcPart := if objMem fn "name"
                          then objSet tcPart "function"
                                 (objSet (getD tcPart "function" (.obj [])) "name"
                                   (getD fn "name" .null))
                          else tcPart
            if objMem fn "arguments" then
              match getD (getD tcPart "function" (.obj [])) "arguments" (.str ""),
                    getD fn "arguments" .null with
              | .str a, .str b =>
                  .ok (setKV tcMap1 idxStr
                        (objSet tcPart "function"
                          (objSet (getD tcPart "function" (.obj [])) "arguments"
                            (.str (a ++ b)))))
              | _, _ => .error .typeError
            else .ok (setKV tcMap1 idxStr tcPart)
          else .ok (setKV tcMap1 idxStr tcPart)
      | none => .ok (setKV tcMap1 idxStr tcPart)

/-- The `for tc in tool_calls_delta` loop. -/
def processTcs : List (String × J) → List J → Except PyErr (List (String × J))
  | m, [] => .ok m
  | m, tc :: rest => do
      let m' ← processTc m tc
      processTcs m' rest

/-- Processing of one parsed `data:` chunk inside the line loop of
`_parse_streaming_chat_completion`. -/
def processChunk (st : PState) (chunk : J) : Except PyErr PState :=
  if !chunk.isDict then .ok st
  else
    match getD chunk "choices" (.arr []) with
    | .arr (firstChoice :: _) =>
        if firstChoice.isDict then
          match getKey firstChoice "delta" with
          | some delta =>
              if delta.isDict then
                let st1 := if objMem delta "content" && (getD delta "content" .null).truthy
                           then { st with parts := st.parts ++ [getD delta "content" .null] }
                           else st
                if objMem delta "tool_calls" then
                  match getD delta "tool_calls" .null with
                  | .arr tcs => do
                      let m ← processTcs st1.tcParts tcs
                      .ok { st1 with tcParts := m }
                  | _ => .ok st1
                else .ok st1
              else .ok st
          | none => .ok st
        else .ok st
    | _ => .ok st

/-- The whole line loop, folded over arrival order. -/
def processChunks : PState → List J → Except PyErr PState
  | st, [] => .ok st
  | st, c :: rest => do
      let st' ← processChunk st c
      processChunks st' rest

/-- Python `"".join(parts)`: `TypeError` as soon as a non-`str` item
occurs. -/
def joinStrParts : List J → Except PyErr String
  | [] => .ok ""
  | .str s :: rest => do
      let r ← joinStrParts rest
      .ok (s ++ r)
  | _ :: _ => .error .typeError

/-- The reconstructed `{content?, tool_calls?}` result dict. -/
structure StreamResult where
  content : Option String
  toolCalls : Option (List J)

/-- `_parse_streaming_chat_completion`, modelled from the list of JSON
values of the surviving `data:` lines in arrival order (the byte-level
plumbing — lossy UTF-8 decode, `\n` split, `data: ` filtering, `[DONE]`
skip and `json.loads` with silent parse errors — is the given input
boundary).  Raised `TypeError`s escape exactly as in the source. -/
def parseStreamingChatCompletion (chunks : List J) : Except PyErr (Option StreamResult) := do
  let st ← processChunks ⟨[], []⟩ chunks
  let content ←
    if st.parts.isEmpty then pure none
    else do
      let s ← joinStrParts st.parts
      pure (some s)
  let toolCalls := if st.tcParts.isEmpty then none else some (st.tcParts.map (·.2))
  if content.isNone && toolCalls.isNone then pure none
  else pure (some ⟨content, toolCalls⟩)

/-- The `delta` dict a chunk contributes, when the chunk passes every
shape guard of the line loop. -/
def deltaOf (chunk : J) : Option J :=
  if !chunk.isDict then none
  else
    match getD chunk "choices" (.arr []) with
    | .arr (firstChoice :: _) =>
        if firstChoice.isDict then
          match getKey firstChoice "delta" with
          | some d => if d.isDict then some d else none
          | none => none
        else none
    | _ => none

/-- The truthy `delta.content` value a chunk contributes, if any. -/
def contentDeltaOf (chunk : J) : Option J :=
  match deltaOf chunk with
  | some d =>
      if objMem d "content" && (getD d "content" .null).truthy
      then some (getD d "content" .null) else none
  | none => none

/-- All truthy `delta.content` values, in arrival order. -/
def specContentParts (chunks : List J) : List J :=
  chunks.filterMap contentDeltaOf

/-- The tool-call deltas of one chunk that the loop actually processes
(dict elements with a non-`None` `index`). -/
def tcDeltasOfChunk (chunk : J) : List J :=
  match deltaOf chunk with
  | some d =>
      if objMem d "tool_calls" then
        match getD d "tool_calls" .null with
        | .arr tcs => tcs.filter (fun tc => tc.isDict && !(getD tc "index" .null).isNull)
        | _ => []
      else []
  | none => []

/-- All processed tool-call deltas of a stream, in arrival order. -/
def allTcDeltas (chunks : List J) : List J :=
  chunks.flatMap tcDeltasOfChunk

/-- The `str(index)` key a processed tool-call delta is filed under. -/
def tcKey (tc : J) : String :=
  pyStr (getD tc "index" .null)

/-- The `function.arguments` fragment a tool-call delta delivers, if any. -/
def argArrivalsOf (tc : J) : List J :=
  match getKey tc "function" with
  | some fn => if fn.isDict && objMem fn "arguments" then [getD fn "arguments" .null] else []
  | none => []

/-- All `arguments` fragments delivered for a given index key, in
arrival order. -/
def specArgArrivals (chunks : List J) (key : String) : List J :=
  ((allTcDeltas chunks).filter (fun tc => tcKey tc == key)).flatMap argArrivalsOf

/-- String projection used to restate concatenation of delivered
fragments (all fragments are strings whenever the parse succeeds). -/
def strOf : J → String
  | .str s => s
  | _ => ""

/-- Concatenation, in order, of the string contents of a list of values. -/
def strConcat : List J → String
  | [] => ""
  | v :: rest => strOf v ++ strConcat rest

/-- The `arguments` value the spec predicts for a key: absent when no
fragment was delivered, else the concatenation of the fragments. -/
def specArgsJ (chunks : List J) (key : String) : Option J :=
  match specArgArrivals chunks key with
  | [] => none
  | vs => some (.str (strConcat vs))

/-- Insertion-order key accumulation (Python dict key order). -/
def addNewKey (ks : List String) (k : String) : List String :=
  if k ∈ ks then ks else ks ++ [k]

/-- The index keys in order of first arrival. -/
def firstOccKeys (chunks : List J) : List String :=
  (allTcDeltas chunks).foldl (fun ks tc => addNewKey ks (tcKey tc)) []

/-- The `function.arguments` field of a reconstructed tool call. -/
def tcArgsField (tc : J) : Option J :=
  (getKey tc "function").bind (fun fn => getKey fn "arguments")

/-- The `index` field of a reconstructed tool call. -/
def tcIndexField (tc : J) : J :=
  getD tc "index" .null

/-! ## Log writer (`logging_jsonl.py`)

The log directory is modelled as an association list from file name to
byte content; the rotation timestamp (a `strftime` result) is passed
in explicitly. -/

/-- The character of one decimal digit. -/
def digitCh (d : Nat) : Char :=
  if d = 0 then '0' else if d = 1 then '1' else if d = 2 then '2' else if d = 3 then '3'
  else if d = 4 then '4' else if d = 5 then '5' else if d = 6 then '6' else if d = 7 then '7'
  else if d = 8 then '8' else '9'

/-- Most-significant-first decimal digit accumulation. -/
def natDecAux (n : Nat) (acc : List Char) : List Char :=
  if h : n < 10 then digitCh n :: acc
  else natDecAux (n / 10) (digitCh (n % 10) :: acc)
  decreasing_by exact Nat.div_lt_self (by omega) (by omega)

/-- Python `str(counter)`: the standard decimal rendering of a natural
number. -/
def natDec (n : Nat) : String :=
  String.mk (natDecAux n [])

/-- A directory: file name to byte content, in creation order. -/
abbrev FS := List (String × List Nat)

/-- Content of a file, `none` when missing. -/
def fsGet : FS → String → Option (List Nat)
  | [], _ => none
  | p :: rest, n => if p.1 = n then some p.2 else fsGet rest n

/-- `Path.exists()`. -/
def fsExists (fs : FS) (n : String) : Bool :=
  (fsGet fs n).isSome

/-- Create or overwrite a file. -/
def fsSet : FS → String → List Nat → FS
  | [], n, c => [(n, c)]
  | p :: rest, n, c => if p.1 = n then (n, c) :: rest else p :: fsSet rest n c

/-- Remove a file. -/
def fsDel (fs : FS) (n : String) : FS :=
  fs.filter (fun p => p.1 ≠ n)

/-- `Path.replace(target)`: atomic rename, overwriting the target. -/
def fsRename (fs : FS) (old new : String) : FS :=
  match fsGet fs old with
  | some c => fsSet (fsDel fs old) new c
  | none => fs

/-- The rotated sibling name `<stem>-<ts><suffix>` (counter `none`) or
`<stem>-<ts>-<c><suffix>`. -/
def rotName (stem suffix ts : String) : Option Nat → String
  | none => stem ++ "-" ++ ts ++ suffix
  | some c => stem ++ "-" ++ ts ++ "-" ++ natDec c ++ suffix

/-- The `while rotated_path.exists(): counter += 1` scan, fuelled; a
directory of `n` files is escaped within `n + 1` probes (proved below),
so the fuel used by `findRotatedName` never runs out. -/
def findFromCounter (fs : FS) (stem suffix ts : String) : Nat → Nat → String
  | 0, c => rotName stem suffix ts (some c)
  | fuel + 1, c =>
      let nm := rotName stem suffix ts (some c)
      if fsExists fs nm then findFromCounter fs stem suffix ts fuel (c + 1) else nm

/-- The sibling name `_rotate_if_needed` settles on: the plain
timestamped name, or the first numbered variant not yet present. -/
def findRotatedName (fs : FS) (stem suffix ts : String) : String :=
  let base := rotName stem suffix ts none
  if fsExists fs base then findFromCounter fs stem suffix ts (fs.length + 1) 1 else base

/-- The logger's path split into `Path.stem`/`Path.suffix` plus the
rotation threshold; the active path is their concatenation. -/
structure LoggerCfg where
  stem : String
  suffix : String
  maxFileBytes : Int

/-- The active log file name. -/
def activePath (cfg : LoggerCfg) : String :=
  cfg.stem ++ cfg.suffix

/-- `JsonlLogger._rotate_if_needed(incoming_bytes)`: returns the new
directory state and the `rotated` flag. -/
def rotateIfNeeded (cfg : LoggerCfg) (fs : FS) (ts : String) (incomingBytes : Nat) :
    FS × Bool :=
  let current : Nat := ((fsGet fs (activePath cfg)).map List.length).getD 0
  if ((current + incomingBytes : Nat) : Int) ≤ cfg.maxFileBytes then (fs, false)
  else
    let rotatedPath := findRotatedName fs cfg.stem cfg.suffix ts
    let fs' := if fsExists fs (activePath cfg)
               then fsRename fs (activePath cfg) rotatedPath
               else fs
    (fs', true)

/-- `JsonlLogger._append_bytes(payload)`: append-with-create, one full
write. -/
def appendBytes (fs : FS) (path : String) (payload : List Nat) : FS × Nat :=
  (fsSet fs path (((fsGet fs path).getD []) ++ payload), payload.length)

/-- The `LogWriteResult` together with the directory after the write. -/
structure WriteOutcome where
  fs : FS
  bytesWritten : Nat
  rotated : Bool

/-- The body of `write_event` under the lock, for an already-encoded
line. -/
def writeLine (cfg : LoggerCfg) (fs : FS) (ts : String) (line : List Nat) : WriteOutcome :=
  let fsRot := rotateIfNeeded cfg fs ts line.length
  let fsApp := appendBytes fsRot.1 (activePath cfg) line
  ⟨fsApp.1, fsApp.2, fsRot.2⟩

/-- `event.setdefault(k, v)`. -/
def setDefaultKey (j : J) (k : String) (v : J) : J :=
  match j with
  | .obj kvs => if (lookupJ kvs k).isSome then j else .obj (kvs ++ [(k, v)])
  | other => other

/-- The encoded line of `write_event`: timestamp stamped if absent,
compact JSON, one `\n`, UTF-8. -/
def encodeEventLine (event : J) (now : String) : List Nat :=
  utf8Str (jsonEnc (setDefaultKey event "timestamp" (.str now)) ++ "\n")

/-- `JsonlLogger.write_event(event)`; `now` is the ISO timestamp read
at encoding time, `ts` the `strftime` stamp read at rotation time. -/
def writeEvent (cfg : LoggerCfg) (fs : FS) (now ts : String) (event : J) : WriteOutcome :=
  writeLine cfg fs ts (encodeEventLine event now)

/-! ## Config model (`config.py`) -/

/-- A character admissible in a URL scheme after the leading letter. -/
def isSchemeChar (c : Char) : Bool :=
  c.isAlphanum || c = '+' || c = '-' || c = '.'

/-- The scheme split of `urllib.parse.urlparse`: the part before the
first `:` counts as the scheme when it is a letter followed by scheme
characters; otherwise the URL has no scheme. -/
def schemeSplit (cs : List Char) : Option (List Char × List Char) :=
  match cs.findIdx? (· == ':') with
  | none => none
  | some i =>
      match cs.take i with
      | [] => none
      | h :: t => if h.isAlpha && (h :: t).all isSchemeChar
                  then some (h :: t, cs.drop (i + 1)) else none

/-- `urlparse(value).scheme` (lower-cased) and `.netloc`. -/
def urlSchemeNetloc (url : String) : String × String :=
  let cs := url.toList
  let split := schemeSplit cs
  let scheme := match split with
    | some (pre, _) => String.mk (pre.map Char.toLower)
    | none => ""
  let rest := match split with
    | some (_, post) => post
    | none => cs
  let netloc :=
    if ['/', '/'].isPrefixOf rest
    then String.mk ((rest.drop 2).takeWhile (fun c => c ≠ '/' && c ≠ '?' && c ≠ '#'))
    else ""
  (scheme, netloc)

/-- `value.rstrip("/")`. -/
def rstripSlashes (s : String) : String :=
  String.mk ((s.toList.reverse.dropWhile (fun c => c = '/')).reverse)

/-- `UpstreamConfig._validate_base_url`. -/
def validateBaseUrl (value : String) : Except String String :=
  let parsed := urlSchemeNetloc value
  if (parsed.1 ≠ "http" && parsed.1 ≠ "https") || parsed.2 = ""
  then .error "base_url must be a full http(s) URL, e.g. http://127.0.0.1:4000"
  else .ok (rstripSlashes value)

/-- The validated fields of `AppConfig` that the claims name. -/
structure AppConfigM where
  baseUrl : String
  maxFileBytes : Int
  maxPromptBytes : Int

/-- Pydantic validation of `AppConfig` on already-typed field values
(TOML decoding is an external collaborator per the spec): `base_url`
runs its field validator; `LoggingConfig` declares `max_file_bytes` and
`max_prompt_bytes` as plain `int` fields with no validator, so every
integer passes. -/
def validateAppConfig (baseUrl : String) (maxFileBytes maxPromptBytes : Int) :
    Except String AppConfigM := do
  let b ← validateBaseUrl baseUrl
  .ok ⟨b, maxFileBytes, maxPromptBytes⟩

/-! ## Proxy engine (`proxy_app.py`, `proxy` and `_proxy_streaming`) -/

/-- One emitted log event: the payload handed to `write_event` and its
`truncated` flag. -/
inductive Event where
  | input (v : LogValue) (truncated : Bool)
  | output (v : LogValue) (truncated : Bool)

/-- The body of the response the client receives. -/
inductive RespBody where
  | raw (s : String)
  | json (j : J)

/-- What the handler produces: a response, or an uncaught exception
escaping the handler (the client then gets the framework's internal
error instead of the upstream response). -/
inductive Outcome where
  | resp (status : Nat) (body : RespBody) (contentType : Option String)
  | exception

/-- The upstream dispatch result.  For a buffered exchange `raw` is the
response body (as pass-through text) and `parsed` its
`safe_json_loads`; for a stream `raw` is the lossy decode of the
concatenated chunks and `chunks` the parsed `data:` lines.  `err` is an
`httpx.RequestError` carrying its class name. -/
inductive UpstreamOutcome where
  | ok (status : Nat) (contentType : Option String) (raw : String) (parsed : J)
       (chunks : List J)
  | err (cls : String)

/-- The 502 error body `{"error": {"message": …, "type": cls}}`. -/
def errorBody (cls : String) : J :=
  .obj [("error", .obj [("message", .str "Upstream request failed"),
                        ("type", .str cls)])]

/-- Lines 329–337 of `proxy_app.py`: extract the user-input record and
write it — outside any `try`, so a logging error escapes (`none`).
Returns the events written. -/
def inputPhase (requestPath : String) (reqJson : J) (logFail0 : Bool) (maxPromptBytes : Int) :
    Option (List Event) :=
  match extractUserInput requestPath reqJson with
  | some record =>
      match promptForLog record maxPromptBytes with
      | (some v, tr) => if logFail0 then none else some [.input v tr]
      | (none, _) => some []
  | none => some []

/-- The assistant record the streaming tail synthesizes, `none` when an
exception inside the tail (a raising chat reconstruction) skips the
emission. -/
def streamTailRecord (requestPath : String) (raw : String) (chunks : List J) : Option J :=
  let base := J.obj [("role", .str "assistant"),
                     ("type", .str (getContentType requestPath .null)),
                     ("content", .str raw)]
  if strContains (strLower requestPath) "/chat/completions" then
    match parseStreamingChatCompletion chunks with
    | .error _ => none
    | .ok none => some base
    | .ok (some parsed) =>
        let r1 := match parsed.content with
                  | some s => objSet base "content" (.str s)
                  | none => base
        let r2 := match parsed.toolCalls with
                  | some tcs => objSet r1 "tool_calls" (.arr tcs)
                  | none => r1
        some r2
  else some base

/-- The whole request handler: `proxy` plus `_proxy_streaming`.
`logFail n` says whether the `n`-th `write_event` call of this request
raises.  Streaming-tail failures are swallowed by the
`except Exception: pass`; the two other write sites have no handler, and
`extract_model_response` errors escape the `except httpx.RequestError`
clause — both surface as `Outcome.exception`. -/
def proxyModel (requestPath : String) (reqJson : J) (up : UpstreamOutcome)
    (logFail : Nat → Bool) (maxPromptBytes : Int) : Outcome × List Event :=
  let streaming := shouldStream reqJson
  match inputPhase requestPath reqJson (logFail 0) maxPromptBytes with
  | none => (.exception, [])
  | some events =>
    let nWrites := events.length
    if streaming then
      match up with
      | .err cls => (.resp 502 (.json (errorBody cls)) (some "application/json"), events)
      | .ok status cty raw _ chunks =>
          let outEvents :=
            match streamTailRecord requestPath raw chunks with
            | none => []
            | some record =>
                match promptForLog record maxPromptBytes with
                | (some v, tr) => if logFail nWrites then [] else [Event.output v tr]
                | (none, _) => []
          (.resp status (.raw raw) cty, events ++ outEvents)
    else
      match up with
      | .err cls => (.resp 502 (.json (errorBody cls)) (some "application/json"), events)
      | .ok status cty raw parsed _ =>
          match extractModelResponse parsed requestPath with
          | .error _ => (.exception, events)
          | .ok (some mr) =>
              match promptForLog mr maxPromptBytes with
              | (some v, tr) =>
                  if logFail nWrites then (.exception, events)
                  else (.resp status (.raw raw) cty, events ++ [.output v tr])
              | (none, _) => (.resp status (.raw raw) cty, events)
          | .ok none => (.resp status (.raw raw) cty, events)

/-- The `type` field of the record an event carries (not available once
the record was truncated to a string). -/
def eventRecordType : Event → Option J
  | .input v _ =>
      match v with
      | .whole j => getKey j "type"
      | .truncStr _ => none
  | .output v _ =>
      match v with
      | .whole j => getKey j "type"
      | .truncStr _ => none

/-- Whether an event is an output event. -/
def Event.isOutput : Event → Bool
  | .output _ _ => true
  | .input _ _ => false

/-- Value of a most-significant-first decimal digit string (proof
device for the injectivity of `natDec`). -/
def decVal : List Char → Nat
  | [] => 0
  | c :: rest => (c.toNat - 48) * 10 ^ rest.length + decVal rest

/-- The integer `index` fields of a reconstructed tool-call list. -/
def tcIndexInts (tcs : List J) : List Int :=
  tcs.filterMap (fun tc => match tcIndexField tc with | .num n => some n | _ => none)

/-- Whether the tool-call loop processes a delta element: a dict with a
non-`None` `index`. -/
def tcRelevant (tc : J) : Bool :=
  tc.isDict && !(getD tc "index" .null).isNull

/-- The `arguments` fragments one chunk delivers for a given key. -/
def chunkArgArrivals (c : J) (key : String) : List J :=
  ((tcDeltasOfChunk c).filter (fun tc => tcKey tc == key)).flatMap argArrivalsOf

/-- Folding `arguments` fragments onto a possibly-present accumulated
string, mirroring `func_args + function["arguments"]`. -/
def combineArgs (prior : Option J) (vs : List J) : Option J :=
  vs.foldl (fun acc v =>
    some (.str ((match acc with | some (.str a) => a | _ => "") ++ strOf v))) prior

/-- The accumulated `function.arguments` value filed under a key. -/
def argsAt (m : List (String × J)) (k : String) : Option J :=
  (lookupJ m k).bind tcArgsField

/-- Shape invariant of one in-progress tool-call entry: a dict whose
`index` stringifies to its key, with a dict `function` whose
`arguments`, if present, is a string. -/
def entryWf (k : String) (tc : J) : Prop :=
  tc.isDict = true ∧
  pyStr (getD tc "index" .null) = k ∧
  ∃ fn, getKey tc "function" = some fn ∧ fn.isDict = true ∧
    (getKey fn "arguments" = none ∨ ∃ s, getKey fn "arguments" = some (.str s))

/-- Shape invariant of the whole `tool_calls_parts` dict. -/
def mapWf (m : List (String × J)) : Prop :=
  ∀ p ∈ m, entryWf p.1 p.2

/-- The streaming scenario of the specification's end-to-end test 2:
two content deltas and a tool call arriving in two fragments. -/
def c4DemoChunks : List J :=
  [J.obj [("choices", J.arr [J.obj [("delta", J.obj [("content", J.str "Hel")])]])],
   J.obj [("choices", J.arr [J.obj [("delta", J.obj [("content", J.str "lo")])]])],
   J.obj [("choices", J.arr [J.obj [("delta", J.obj [("tool_calls", J.arr
     [J.obj [("index", J.num 0), ("id", J.str "t1"),
             ("function", J.obj [("name", J.str "f"), ("arguments", J.str "14:")])]])])]])],
   J.obj [("choices", J.arr [J.obj [("delta", J.obj [("tool_calls", J.arr
     [J.obj [("index", J.num 0),
             ("function", J.obj [("arguments", J.str "1")])]])])]])]]

/-- A stream whose tool-call deltas arrive with index 1 first, then
index 0. -/
def c9DemoChunks : List J :=
  [J.obj [("choices", J.arr [J.obj [("delta", J.obj [("tool_calls", J.arr
     [J.obj [("index", J.num 1),
             ("function", J.obj [("arguments", J.str "b")])]])])]])],
   J.obj [("choices", J.arr [J.obj [("delta", J.obj [("tool_calls", J.arr
     [J.obj [("index", J.num 0),
             ("function", J.obj [("arguments", J.str "a")])]])])]])]]

/-! ## Helper lemmas: decimal rendering and directory operations -/

theorem digitCh_toNat {d : Nat} (h : d < 10) : (digitCh d).toNat = 48 + d := by
  interval_cases d <;> rfl

theorem natDecAux_decVal (n : Nat) :
    ∀ acc, decVal (natDecAux n acc) = n * 10 ^ acc.length + decVal acc := by
  induction n using Nat.strong_induction_on with
  | _ n ih =>
    intro acc
    rw [natDecAux]
    split
    · next h =>
      simp only [decVal, digitCh_toNat h, Nat.add_sub_cancel_left]
    · next h =>
      rw [ih (n / 10) (Nat.div_lt_self (by omega) (by omega))]
      simp only [decVal, List.length_cons, digitCh_toNat (Nat.mod_lt n (by omega)),
        Nat.add_sub_cancel_left]
      rw [pow_succ]
      have hnm : 10 * (n / 10) + n % 10 = n := Nat.div_add_mod n 10
      calc n / 10 * (10 ^ acc.length * 10) + (n % 10 * 10 ^ acc.length + decVal acc)
          = (10 * (n / 10) + n % 10) * 10 ^ acc.length + decVal acc := by ring
        _ = n * 10 ^ acc.length + decVal acc := by rw [hnm]

theorem natDecAux_nil_inj {a b : Nat} (h : natDecAux a [] = natDecAux b []) : a = b := by
  have ha := natDecAux_decVal a []
  have hb := natDecAux_decVal b []
  rw [h] at ha
  simp only [decVal, List.length_nil, pow_zero, mul_one, Nat.add_zero] at ha hb
  omega

theorem natDec_data {n : Nat} : (natDec n).data = natDecAux n [] := rfl

theorem numbered_rotName_inj (stem suffix ts : String) {a b : Nat}
    (h : rotName stem suffix ts (some a) = rotName stem suffix ts (some b)) : a = b := by
  have hd := congrArg String.data h
  simp only [rotName, String.data_append] at hd
  have h1 := List.append_cancel_right hd
  have h2 := List.append_cancel_left h1
  exact natDecAux_nil_inj (natDec_data ▸ natDec_data ▸ h2)

theorem fsGet_set_self (fs : FS) (n : String) (c : List Nat) :
    fsGet (fsSet fs n c) n = some c := by
  induction fs with
  | nil => simp [fsSet, fsGet]
  | cons p rest ih =>
      by_cases h : p.1 = n
      · simp [fsSet, fsGet, h]
      · simp [fsSet, fsGet, h, ih]

theorem fsGet_set_ne (fs : FS) {n m : String} (h : m ≠ n) (c : List Nat) :
    fsGet (fsSet fs n c) m = fsGet fs m := by
  induction fs with
  | nil => simp [fsSet, fsGet, Ne.symm h]
  | cons p rest ih =>
      simp only [fsSet]
      by_cases hp : p.1 = n
      · simp [fsGet, hp, Ne.symm h]
      · simp [fsGet, hp, ih]

theorem fsGet_del_self (fs : FS) (n : String) : fsGet (fsDel fs n) n = none := by
  induction fs with
  | nil => simp [fsDel, fsGet]
  | cons p rest ih =>
      by_cases h : p.1 = n
      · simpa [fsDel, List.filter_cons, h] using ih
      · simpa [fsDel, List.filter_cons, fsGet, h] using ih

theorem fsGet_del_ne (fs : FS) {n m : String} (h : m ≠ n) :
    fsGet (fsDel fs n) m = fsGet fs m := by
  induction fs with
  | nil => simp [fsDel, fsGet]
  | cons p rest ih =>
      by_cases hp : p.1 = n
      · simpa [fsDel, List.filter_cons, hp, fsGet, Ne.symm h] using ih
      · by_cases hm : p.1 = m
        · simp [fsDel, List.filter_cons, fsGet, hp, hm, h]
        · simpa [fsDel, List.filter_cons, fsGet, hp, hm] using ih

theorem fsExists_mem {fs : FS} {n : String} (h : fsExists fs n = true) :
    n ∈ fs.map Prod.fst := by
  induction fs with
  | nil => simp [fsExists, fsGet] at h
  | cons p rest ih =>
      by_cases hp : p.1 = n
      · simp [hp]
      · simp only [fsExists, fsGet, hp, if_false] at h
        exact List.mem_cons_of_mem _ (ih h)

theorem exists_fresh_counter (fs : FS) (stem suffix ts : String) :
    ∃ k, 1 ≤ k ∧ k < fs.length + 2 ∧
      fsExists fs (rotName stem suffix ts (some k)) = false := by
  by_contra hall
  push_neg at hall
  have hsub : (List.range' 1 (fs.length + 1)).map
      (fun k => rotName stem suffix ts (some k)) ⊆ fs.map Prod.fst := by
    intro n hn
    rcases List.mem_map.mp hn with ⟨k, hk, rfl⟩
    rcases List.mem_range'_1.mp hk with ⟨hk1, hk2⟩
    have := hall k hk1 (by omega)
    exact fsExists_mem (by simpa using this)
  have hnd : ((List.range' 1 (fs.length + 1)).map
      (fun k => rotName stem suffix ts (some k))).Nodup :=
    List.Nodup.map (fun a b hab => numbered_rotName_inj stem suffix ts hab)
      (List.nodup_range' 1 (fs.length + 1))
  have hle := (List.Nodup.subperm hnd hsub).length_le
  simp only [List.length_map, List.length_range', List.length_map] at hle
  omega

theorem findFromCounter_fresh (fs : FS) (stem suffix ts : String) :
    ∀ (fuel c : Nat),
      (∃ k, c ≤ k ∧ k < c + fuel ∧ fsExists fs (rotName stem suffix ts (some k)) = false) →
      ∃ j, findFromCounter fs stem suffix ts fuel c = rotName stem suffix ts (some j) ∧
        fsExists fs (rotName stem suffix ts (some j)) = false ∧ c ≤ j ∧
        ∀ i, c ≤ i → i < j → fsExists fs (rotName stem suffix ts (some i)) = true := by
  intro fuel
  induction fuel with
  | zero =>
      rintro c ⟨k, hk1, hk2, _⟩
      omega
  | succ fuel ih =>
      rintro c ⟨k, hk1, hk2, hkf⟩
      by_cases hc : fsExists fs (rotName stem suffix ts (some c)) = true
      · have hkc : k ≠ c := fun he => by rw [he] at hkf; rw [hc] at hkf; cases hkf
        obtain ⟨j, hj1, hj2, hj3, hj4⟩ :=
          ih (c + 1) ⟨k, by omega, by omega, hkf⟩
        refine ⟨j, ?_, hj2, by omega, ?_⟩
        · simpa [findFromCounter, hc] using hj1
        · intro i hi1 hi2
          rcases Nat.eq_or_lt_of_le hi1 with he | hlt
          · rwa [he] at hc
          · exact hj4 i hlt hi2
      · have hc' : fsExists fs (rotName stem suffix ts (some c)) = false := by
          simpa using hc
        exact ⟨c, by simp [findFromCounter, hc'], hc', le_refl c, fun i h1 h2 => by omega⟩

theorem findRotatedName_fresh (fs : FS) (stem suffix ts : String) :
    fsExists fs (findRotatedName fs stem suffix ts) = false ∧
    ∃ oc, findRotatedName fs stem suffix ts = rotName stem suffix ts oc := by
  by_cases hb : fsExists fs (rotName stem suffix ts none) = true
  · obtain ⟨k, h1, h2, h3⟩ := exists_fresh_counter fs stem suffix ts
    obtain ⟨j, hj1, hj2, _, _⟩ :=
      findFromCounter_fresh fs stem suffix ts (fs.length + 1) 1 ⟨k, h1, by omega, h3⟩
    constructor
    · simpa [findRotatedName, hb, hj1] using hj2
    · exact ⟨some j, by simp [findRotatedName, hb, hj1]⟩
  · have hb' : fsExists fs (rotName stem suffix ts none) = false := by simpa using hb
    exact ⟨by simp [findRotatedName, hb'], none, by simp [findRotatedName, hb']⟩

/-! ## Claims C5 and C10: rotation behaviour of the log writer -/

/-- C10: when the active log file is missing and the encoded line alone
exceeds `max_file_bytes`, the write reports `rotated = true` although no
sibling is created (the rename is skipped since there is nothing to
rename — the resulting directory is exactly the old one plus the active
file), and the line is written in full, so the new active file's size
exceeds `max_file_bytes`. -/
theorem c10_missing_file_oversized_line (cfg : LoggerCfg) (fs : FS) (ts : String)
    (line : List Nat)
    (hmiss : fsExists fs (activePath cfg) = false)
    (hover : cfg.maxFileBytes < (line.length : Int)) :
    (writeLine cfg fs ts line).rotated = true ∧
    (writeLine cfg fs ts line).fs = fsSet fs (activePath cfg) line ∧
    fsGet (writeLine cfg fs ts line).fs (activePath cfg) = some line ∧
    cfg.maxFileBytes < (line.length : Int) ∧
    (writeLine cfg fs ts line).bytesWritten = line.length := by
  have hget : fsGet fs (activePath cfg) = none := by
    rcases hg : fsGet fs (activePath cfg) with _ | c
    · rfl
    · simp [fsExists, hg] at hmiss
  have hcond : ¬ ((line.length : Int) ≤ cfg.maxFileBytes) := by omega
  refine ⟨?_, ?_, ?_, hover, ?_⟩ <;>
    simp [writeLine, rotateIfNeeded, appendBytes, hget, hmiss, hcond, fsGet_set_self]

/-- C10 witness: a concrete empty directory, a 3-byte threshold and a
5-byte line. -/
theorem c10_missing_file_oversized_line_witness :
    (writeLine ⟨"promptlens", ".jsonl", 3⟩ [] "20250101-000000" [65, 65, 65, 65, 65]).rotated
      = true ∧
    (writeLine ⟨"promptlens", ".jsonl", 3⟩ [] "20250101-000000"
        [65, 65, 65, 65, 65]).fs
      = fsSet [] (activePath ⟨"promptlens", ".jsonl", 3⟩) [65, 65, 65, 65, 65] ∧
    fsGet (writeLine ⟨"promptlens", ".jsonl", 3⟩ [] "20250101-000000"
        [65, 65, 65, 65, 65]).fs (activePath ⟨"promptlens", ".jsonl", 3⟩)
      = some [65, 65, 65, 65, 65] ∧
    (⟨"promptlens", ".jsonl", 3⟩ : LoggerCfg).maxFileBytes
      < (([65, 65, 65, 65, 65] : List Nat).length : Int) ∧
    (writeLine ⟨"promptlens", ".jsonl", 3⟩ [] "20250101-000000"
        [65, 65, 65, 65, 65]).bytesWritten = ([65, 65, 65, 65, 65] : List Nat).length :=
  c10_missing_file_oversized_line ⟨"promptlens", ".jsonl", 3⟩ [] "20250101-000000"
    [65, 65, 65, 65, 65] rfl (by decide)

/-- C5 counterexample: with the active file missing and an oversized
line, the threshold `S + len(payload) > max_file_bytes` is exceeded
(with `S = 0`), yet after the write the directory holds exactly the
active file — no timestamped sibling was created, against the claim
that the active file is renamed to a sibling holding the pre-rotation
content on every such write. -/
theorem c5_counterexample :
    ((0 + ([65, 65, 65, 65, 65] : List Nat).length : Nat) : Int)
        > (⟨"promptlens", ".jsonl", 3⟩ : LoggerCfg).maxFileBytes ∧
    (writeLine ⟨"promptlens", ".jsonl", 3⟩ [] "20250101-000000"
        [65, 65, 65, 65, 65]).rotated = true ∧
    (writeLine ⟨"promptlens", ".jsonl", 3⟩ [] "20250101-000000"
        [65, 65, 65, 65, 65]).fs = [("promptlens.jsonl", [65, 65, 65, 65, 65])] :=
  ⟨by decide, rfl, rfl⟩

/-- C5 (amended): on a write whose encoded line pushes the existing
active file past `max_file_bytes`, the active file is renamed to the
timestamped sibling name (with `-1`, `-2`, … appended until unique —
the chosen name is of that shape and not previously present), and after
the write the active file holds exactly the new line while the sibling
holds the pre-rotation content.  The rename requires the active file to
exist; the missing-file case is the separate C10 behaviour. -/
theorem c5_rotation_renames_active_file (cfg : LoggerCfg) (fs : FS) (ts : String)
    (line C : List Nat)
    (hC : fsGet fs (activePath cfg) = some C)
    (hover : cfg.maxFileBytes < ((C.length + line.length : Nat) : Int)) :
    (writeLine cfg fs ts line).rotated = true ∧
    fsExists fs (findRotatedName fs cfg.stem cfg.suffix ts) = false ∧
    (∃ oc, findRotatedName fs cfg.stem cfg.suffix ts = rotName cfg.stem cfg.suffix ts oc) ∧
    fsGet (writeLine cfg fs ts line).fs (activePath cfg) = some line ∧
    fsGet (writeLine cfg fs ts line).fs (findRotatedName fs cfg.stem cfg.suffix ts)
      = some C := by
  obtain ⟨hfresh, hform⟩ := findRotatedName_fresh fs cfg.stem cfg.suffix ts
  have hne : findRotatedName fs cfg.stem cfg.suffix ts ≠ activePath cfg := by
    intro he
    rw [he] at hfresh
    simp [fsExists, hC] at hfresh
  have hex : fsExists fs (activePath cfg) = true := by simp [fsExists, hC]
  have hcond : ¬ (((C.length + line.length : Nat) : Int) ≤ cfg.maxFileBytes) := by
    push_cast at hover ⊢
    omega
  have hrot : rotateIfNeeded cfg fs ts line.length =
      (fsSet (fsDel fs (activePath cfg)) (findRotatedName fs cfg.stem cfg.suffix ts) C,
       true) := by
    simp [rotateIfNeeded, hC, hcond, hex, fsRename]
    omega
  have hmid : fsGet (fsSet (fsDel fs (activePath cfg))
      (findRotatedName fs cfg.stem cfg.suffix ts) C) (activePath cfg) = none := by
    rw [fsGet_set_ne _ (Ne.symm hne), fsGet_del_self]
  refine ⟨?_, hfresh, hform, ?_, ?_⟩
  · simp [writeLine, hrot]
  · simp [writeLine, hrot, appendBytes, hmid, fsGet_set_self]
  · simp only [writeLine, hrot, appendBytes]
    rw [fsGet_set_ne _ hne, fsGet_set_self]

/-- C5 witness: a two-file directory with an 8-byte active file, a
10-byte threshold and a 4-byte line, colliding with an existing rotated
sibling of the same timestamp. -/
theorem c5_rotation_renames_active_file_witness :
    (writeLine ⟨"promptlens", ".jsonl", 10⟩
        [("promptlens.jsonl", [1, 2, 3, 4, 5, 6, 7, 8]),
         ("promptlens-20250101-000000.jsonl", [7])]
        "20250101-000000" [9, 9, 9, 9]).rotated = true ∧
    fsExists [("promptlens.jsonl", [1, 2, 3, 4, 5, 6, 7, 8]),
              ("promptlens-20250101-000000.jsonl", [7])]
      (findRotatedName [("promptlens.jsonl", [1, 2, 3, 4, 5, 6, 7, 8]),
                        ("promptlens-20250101-000000.jsonl", [7])]
        "promptlens" ".jsonl" "20250101-000000") = false ∧
    (∃ oc, findRotatedName [("promptlens.jsonl", [1, 2, 3, 4, 5, 6, 7, 8]),
                            ("promptlens-20250101-000000.jsonl", [7])]
        "promptlens" ".jsonl" "20250101-000000"
      = rotName "promptlens" ".jsonl" "20250101-000000" oc) ∧
    fsGet (writeLine ⟨"promptlens", ".jsonl", 10⟩
        [("promptlens.jsonl", [1, 2, 3, 4, 5, 6, 7, 8]),
         ("promptlens-20250101-000000.jsonl", [7])]
        "20250101-000000" [9, 9, 9, 9]).fs
        (activePath ⟨"promptlens", ".jsonl", 10⟩) = some [9, 9, 9, 9] ∧
    fsGet (writeLine ⟨"promptlens", ".jsonl", 10⟩
        [("promptlens.jsonl", [1, 2, 3, 4, 5, 6, 7, 8]),
         ("promptlens-20250101-000000.jsonl", [7])]
        "20250101-000000" [9, 9, 9, 9]).fs
        (findRotatedName [("promptlens.jsonl", [1, 2, 3, 4, 5, 6, 7, 8]),
                          ("promptlens-20250101-000000.jsonl", [7])]
          "promptlens" ".jsonl" "20250101-000000")
      = some [1, 2, 3, 4, 5, 6, 7, 8] :=
  c5_rotation_renames_active_file ⟨"promptlens", ".jsonl", 10⟩
    [("promptlens.jsonl", [1, 2, 3, 4, 5, 6, 7, 8]),
     ("promptlens-20250101-000000.jsonl", [7])]
    "20250101-000000" [9, 9, 9, 9] [1, 2, 3, 4, 5, 6, 7, 8] rfl (by decide)

/-! ## Claim C8: configuration validation -/

/-- C8 counterexample: a configuration with `max_file_bytes = 0` and
`max_prompt_bytes = -7` loads successfully — pydantic type-checks the
two size fields but `LoggingConfig` declares no positivity validator,
against the claim that such a load fails. -/
theorem c8_counterexample :
    validateAppConfig "http://127.0.0.1:4000" 0 (-7)
      = .ok ⟨"http://127.0.0.1:4000", 0, -7⟩ ∧
    ¬ ((0 : Int) > 0) ∧ ¬ ((-7 : Int) > 0) :=
  ⟨rfl, by decide, by decide⟩

/-- C8 (amended): `base_url` is genuinely validated — a successful load
implies the URL parses with an `http`/`https` scheme and a non-empty
netloc, and any `base_url` passing its validator loads — but
`max_file_bytes` and `max_prompt_bytes` are accepted unchanged whatever
integers they are; positivity is not enforced. -/
theorem c8_base_url_validated_sizes_unchecked :
    (∀ (url : String) (mfb mpb : Int) (cfg : AppConfigM),
      validateAppConfig url mfb mpb = .ok cfg →
        ((urlSchemeNetloc url).1 = "http" ∨ (urlSchemeNetloc url).1 = "https") ∧
        (urlSchemeNetloc url).2 ≠ "" ∧
        cfg = ⟨rstripSlashes url, mfb, mpb⟩) ∧
    (∀ (url : String) (mfb mpb : Int),
      (validateBaseUrl url).isOk = true → (validateAppConfig url mfb mpb).isOk = true) := by
  constructor
  · intro url mfb mpb cfg h
    simp only [validateAppConfig, bind, Except.bind] at h
    rcases hv : validateBaseUrl url with e | b <;> rw [hv] at h
    · cases h
    · simp only [Except.ok.injEq] at h
      unfold validateBaseUrl at hv
      dsimp only at hv
      split at hv
      · cases hv
      · next hcond =>
          simp only [Bool.or_eq_true, Bool.and_eq_true, decide_eq_true_eq,
            not_or, not_and] at hcond
          push_neg at hcond
          refine ⟨?_, hcond.2, ?_⟩
          · by_cases hh : (urlSchemeNetloc url).1 = "http"
            · exact Or.inl hh
            · exact Or.inr (hcond.1 hh)
          · simp only [Except.ok.injEq] at hv
            rw [← h, ← hv]
  · intro url mfb mpb h
    rcases hv : validateBaseUrl url with e | b
    · rw [hv] at h
      cases h
    · simp [validateAppConfig, bind, Except.bind, hv, Except.isOk, Except.toBool]

/-- C8 amended witness: the concrete default upstream URL together with
non-positive size fields. -/
theorem c8_base_url_validated_sizes_unchecked_witness :
    (((urlSchemeNetloc "http://127.0.0.1:4000").1 = "http" ∨
      (urlSchemeNetloc "http://127.0.0.1:4000").1 = "https") ∧
     (urlSchemeNetloc "http://127.0.0.1:4000").2 ≠ "" ∧
     (⟨"http://127.0.0.1:4000", 0, -7⟩ : AppConfigM)
       = ⟨rstripSlashes "http://127.0.0.1:4000", 0, -7⟩) ∧
    (validateAppConfig "http://127.0.0.1:4000" 0 (-7)).isOk = true :=
  ⟨c8_base_url_validated_sizes_unchecked.1 "http://127.0.0.1:4000" 0 (-7)
      ⟨"http://127.0.0.1:4000", 0, -7⟩ rfl,
   c8_base_url_validated_sizes_unchecked.2 "http://127.0.0.1:4000" 0 (-7) rfl⟩

/-! ## Claim C1: prompt size bounding -/

theorem promptForLog_ne_null (record : J) (maxBytes : Int) (hnn : record ≠ J.null) :
    promptForLog record maxBytes =
      (if ((jsonEncBytes record).length : Int) ≤ maxBytes
       then (some (.whole record), false)
       else (some (.truncStr (truncateBytes (jsonEncBytes record) maxBytes).1), true)) := by
  cases record with
  | null => exact absurd rfl hnn
  | bool b => rfl
  | num n => rfl
  | str s => rfl
  | arr xs => rfl
  | obj kvs => rfl

/-- C1 counterexample: for the embeddings request body
`{"input": "AAAA"}` with `max_prompt_bytes = 50`, the extracted content
is `"AAAA"` whose JSON encoding is 6 bytes — within the limit, so the
claim requires `truncated = false` with the content unchanged — yet the
emitted input event has `truncated = true` with the whole record
replaced, because the code measures and truncates the JSON encoding of
the full `{role, type, content}` record (51 bytes), not of the content. -/
theorem c1_counterexample :
    extractPrompt "/v1/embeddings" (J.obj [("input", J.str "AAAA")]) = J.str "AAAA" ∧
    ((jsonEncBytes (J.str "AAAA")).length : Int) ≤ 50 ∧
    extractUserInput "/v1/embeddings" (J.obj [("input", J.str "AAAA")])
      = some (J.obj [("role", J.str "user"), ("type", J.str "embedding"),
                     ("content", J.str "AAAA")]) ∧
    (promptForLog (J.obj [("role", J.str "user"), ("type", J.str "embedding"),
                          ("content", J.str "AAAA")]) 50).2 = true ∧
    inputPhase "/v1/embeddings" (J.obj [("input", J.str "AAAA")]) false 50
      = some [Event.input (LogValue.truncStr (truncateBytes (jsonEncBytes
          (J.obj [("role", J.str "user"), ("type", J.str "embedding"),
                  ("content", J.str "AAAA")])) 50).1) true] :=
  ⟨rfl, by decide, rfl, rfl, rfl⟩

/-- C1 (amended): the size bound governs the JSON encoding of the whole
log record (`role`, `type`, `content`), not of the extracted content
alone.  Within the bound the record — hence its content — is emitted
unchanged with `truncated = false`; beyond it the entire record is
replaced by the decoded prefix of its JSON encoding, of byte length at
most `max_prompt_bytes` whenever the bound is non-negative, with
`truncated = true`.  A `None` prompt is never written and never
flagged. -/
theorem c1_record_level_truncation (record : J) (maxBytes : Int)
    (hnn : record ≠ J.null) :
    promptForLog J.null maxBytes = (none, false) ∧
    (((jsonEncBytes record).length : Int) ≤ maxBytes →
      promptForLog record maxBytes = (some (.whole record), false)) ∧
    (maxBytes < ((jsonEncBytes record).length : Int) →
      promptForLog record maxBytes =
        (some (.truncStr (truncateBytes (jsonEncBytes record) maxBytes).1), true) ∧
      (0 ≤ maxBytes →
        (((truncateBytes (jsonEncBytes record) maxBytes).1.length : Int) ≤ maxBytes)) ∧
      (truncateBytes (jsonEncBytes record) maxBytes).1
        = (jsonEncBytes record).take maxBytes.toNat) := by
  refine ⟨rfl, ?_, ?_⟩
  · intro h
    rw [promptForLog_ne_null _ _ hnn, if_pos h]
  · intro h
    have hn : ¬ ((jsonEncBytes record).length : Int) ≤ maxBytes := by omega
    refine ⟨by rw [promptForLog_ne_null _ _ hnn, if_neg hn], ?_, ?_⟩
    · intro h0
      rcases le_or_lt maxBytes 0 with hle | hpos
      · have : maxBytes = 0 := le_antisymm hle h0
        simp [truncateBytes, this]
      · have hp : ¬ maxBytes ≤ 0 := by omega
        simp only [truncateBytes, if_neg hp, if_neg hn, List.length_take]
        omega
    · rcases le_or_lt maxBytes 0 with hle | hpos
      · have ht : maxBytes.toNat = 0 := Int.toNat_of_nonpos hle
        simp [truncateBytes, if_pos hle, ht]
      · have hp : ¬ maxBytes ≤ 0 := by omega
        simp [truncateBytes, if_neg hp, if_neg hn]

/-- C1 amended witness: the string record `"AAAA"` (6-byte encoding)
under bounds 50 and 3. -/
theorem c1_record_level_truncation_witness :
    promptForLog (J.str "AAAA") 50 = (some (.whole (J.str "AAAA")), false) ∧
    promptForLog (J.str "AAAA") 3
      = (some (.truncStr (truncateBytes (jsonEncBytes (J.str "AAAA")) 3).1), true) ∧
    ((truncateBytes (jsonEncBytes (J.str "AAAA")) 3).1.length : Int) ≤ 3 :=
  ⟨(c1_record_level_truncation (J.str "AAAA") 50 nofun).2.1 (by decide),
   ((c1_record_level_truncation (J.str "AAAA") 3 nofun).2.2 (by decide)).1,
   ((c1_record_level_truncation (J.str "AAAA") 3 nofun).2.2 (by decide)).2.1 (by decide)⟩

/-! ## Claim C2: API family of emitted events -/

theorem getContentType_eq_specFamily {j : J} (path : String) (h : j.isDict = true) :
    getContentType path j = specFamily path := by
  simp [getContentType, specFamily, h]

theorem assistantRecord_type_field (ty : String) (c t rf : J) :
    getKey (assistantRecord ty c t rf) "type" = some (.str ty) := rfl

theorem extractModelResponse_ok_some {j : J} {path : String} {r : J}
    (h : extractModelResponse j path = .ok (some r)) :
    j.isDict = true ∧ ∃ c t rf, r = assistantRecord (getContentType path j) c t rf := by
  cases j with
  | obj kvs =>
      refine ⟨rfl, ?_⟩
      simp only [extractModelResponse] at h
      repeat' split at h
      all_goals try cases h
      all_goals exact ⟨_, _, _, rfl⟩
  | null => simp [extractModelResponse, J.isDict] at h
  | bool b => simp [extractModelResponse, J.isDict] at h
  | num n => simp [extractModelResponse, J.isDict] at h
  | str s => simp [extractModelResponse, J.isDict] at h
  | arr xs => simp [extractModelResponse, J.isDict] at h

/-- C2 counterexample: a streaming chat request to
`/v1/chat/completions` — the path-derived family is `chat`, but the
emitted output event carries type `unknown`, because the streaming tail
calls `_get_content_type(request_path, None)` and the `None` body
forces the early `"unknown"` return regardless of the path. -/
theorem c2_counterexample :
    specFamily "/v1/chat/completions" = "chat" ∧
    getContentType "/v1/chat/completions" J.null = "unknown" ∧
    ((proxyModel "/v1/chat/completions"
        (J.obj [("stream", J.bool true), ("messages", J.arr [])])
        (.ok 200 (some "text/event-stream") "data: [DONE]\n" J.null [])
        (fun _ => false) 1000000).2.map eventRecordType)
      = [some (J.str "chat"), some (J.str "unknown")] ∧
    ("unknown" : String) ≠ "chat" :=
  ⟨rfl, rfl, rfl, by decide⟩

/-- C2 (amended): classification is path-driven only when a JSON object
accompanies it.  The input record and every buffered output record
carry the family derived from the request path (case-insensitive
substring match, first hit wins, patterns `/chat/completions`,
`/completions`, `/embeddings`, `/images/generations` or `/images`,
`/responses`); the record synthesized for a streaming response always
carries `unknown`, since the classifier is invoked with a `None` body
there. -/
theorem c2_family_per_emission_site :
    (∀ (path : String) (kvs : List (String × J)),
      extractUserInput path (J.obj kvs)
        = some (J.obj [("role", J.str "user"), ("type", J.str (specFamily path)),
                       ("content", extractPrompt path (J.obj kvs))])) ∧
    (∀ (path : String) (j r : J),
      extractModelResponse j path = .ok (some r) →
        getKey r "type" = some (.str (specFamily path))) ∧
    (∀ (path raw : String) (chunks : List J) (r : J),
      streamTailRecord path raw chunks = some r →
        getKey r "type" = some (.str "unknown")) := by
  refine ⟨?_, ?_, ?_⟩
  · intro path kvs
    simp [extractUserInput, J.isDict, getContentType_eq_specFamily path (rfl : (J.obj kvs).isDict = true)]
  · intro path j r h
    obtain ⟨hd, c, t, rf, rfl⟩ := extractModelResponse_ok_some h
    rw [assistantRecord_type_field, getContentType_eq_specFamily path hd]
  · intro path raw chunks r h
    unfold streamTailRecord at h
    split at h
    · split at h
      · cases h
      · injection h with h1
        rw [← h1]
        rfl
      · next parsed heq =>
          rcases parsed with ⟨oc, otc⟩
          cases oc <;> cases otc <;>
            (injection h with h1; rw [← h1]; rfl)
    · injection h with h1
      rw [← h1]
      rfl

/-- C2 amended witness: concrete instances for the three emission
sites. -/
theorem c2_family_per_emission_site_witness :
    (extractUserInput "/v1/chat/completions" (J.obj [("messages", J.arr [])])
      = some (J.obj [("role", J.str "user"),
                     ("type", J.str (specFamily "/v1/chat/completions")),
                     ("content", extractPrompt "/v1/chat/completions"
                        (J.obj [("messages", J.arr [])]))])) ∧
    (getKey (assistantRecord "completion" (J.str "pong") J.null J.null) "type"
      = some (.str (specFamily "/v1/completions"))) ∧
    (getKey (J.obj [("role", J.str "assistant"), ("type", J.str "unknown"),
                    ("content", J.str "raw")]) "type" = some (.str "unknown")) :=
  ⟨c2_family_per_emission_site.1 "/v1/chat/completions" [("messages", J.arr [])],
   c2_family_per_emission_site.2.1 "/v1/completions"
     (J.obj [("choices", J.arr [J.obj [("text", J.str "pong")]])])
     (assistantRecord "completion" (J.str "pong") J.null J.null) rfl,
   c2_family_per_emission_site.2.2 "/v1/embeddings" "raw" []
     (J.obj [("role", J.str "assistant"), ("type", J.str "unknown"),
             ("content", J.str "raw")]) rfl⟩

/-! ## Claims C3, C6, C7: proxy control flow -/

theorem promptForLog_obj (kvs : List (String × J)) (m : Int) :
    ∃ v tr, promptForLog (J.obj kvs) m = (some v, tr) := by
  by_cases hc : ((jsonEncBytes (J.obj kvs)).length : Int) ≤ m
  · exact ⟨.whole _, false, by rw [promptForLog_ne_null (J.obj kvs) m (fun h => J.noConfusion h), if_pos hc]⟩
  · exact ⟨_, true, by rw [promptForLog_ne_null (J.obj kvs) m (fun h => J.noConfusion h), if_neg hc]⟩

theorem inputPhase_obj (path : String) (kvs : List (String × J)) (m : Int) :
    ∃ v tr, inputPhase path (J.obj kvs) false m = some [.input v tr] := by
  obtain ⟨v, tr, hv⟩ := promptForLog_obj
    [("role", J.str "user"), ("type", J.str (getContentType path (J.obj kvs))),
     ("content", extractPrompt path (J.obj kvs))] m
  exact ⟨v, tr, by simp [inputPhase, extractUserInput, J.isDict, hv]⟩

theorem inputPhase_obj_fail (path : String) (kvs : List (String × J)) (m : Int) :
    inputPhase path (J.obj kvs) true m = none := by
  obtain ⟨v, tr, hv⟩ := promptForLog_obj
    [("role", J.str "user"), ("type", J.str (getContentType path (J.obj kvs))),
     ("content", extractPrompt path (J.obj kvs))] m
  simp [inputPhase, extractUserInput, J.isDict, hv]

theorem inputPhase_false_total (path : String) (j : J) (m : Int) :
    ∃ evs, inputPhase path j false m = some evs ∧ ∀ e ∈ evs, e.isOutput = false := by
  cases j with
  | obj kvs =>
      obtain ⟨v, tr, hv⟩ := inputPhase_obj path kvs m
      exact ⟨[.input v tr], hv, by simp [Event.isOutput]⟩
  | null => exact ⟨[], by simp [inputPhase, extractUserInput, J.isDict], by simp⟩
  | bool b => exact ⟨[], by simp [inputPhase, extractUserInput, J.isDict], by simp⟩
  | num n => exact ⟨[], by simp [inputPhase, extractUserInput, J.isDict], by simp⟩
  | str s => exact ⟨[], by simp [inputPhase, extractUserInput, J.isDict], by simp⟩
  | arr xs => exact ⟨[], by simp [inputPhase, extractUserInput, J.isDict], by simp⟩

/-- C6: an `httpx.RequestError` during upstream dispatch (buffered or at
stream open, the mode being chosen by the body's `stream` flag) yields
a 502 response with body
`{"error": {"message": "Upstream request failed", "type": <class>}}`
and `application/json` content type; when the request body was a JSON
object the input event is still logged, and no output event is ever
logged. -/
theorem c6_upstream_error_502 (path : String) (reqJson : J) (cls : String)
    (logFail : Nat → Bool) (maxp : Int) (hlog : logFail 0 = false) :
    (proxyModel path reqJson (.err cls) logFail maxp).1
      = .resp 502 (.json (errorBody cls)) (some "application/json") ∧
    (∀ e ∈ (proxyModel path reqJson (.err cls) logFail maxp).2, e.isOutput = false) ∧
    (∀ kvs, reqJson = J.obj kvs →
      ∃ v tr, (proxyModel path reqJson (.err cls) logFail maxp).2 = [.input v tr]) := by
  obtain ⟨evs, hevs, hno⟩ := inputPhase_false_total path reqJson maxp
  have hmain : proxyModel path reqJson (.err cls) logFail maxp
      = (.resp 502 (.json (errorBody cls)) (some "application/json"), evs) := by
    unfold proxyModel
    rw [hlog, hevs]
    by_cases hs : shouldStream reqJson <;> simp [hs]
  refine ⟨by rw [hmain], by rw [hmain]; exact hno, ?_⟩
  intro kvs hk
  subst hk
  obtain ⟨v, tr, hv⟩ := inputPhase_obj path kvs maxp
  rw [hevs] at hv
  injection hv with hv
  exact ⟨v, tr, by rw [hmain, ← hv]⟩

/-- C6 witness: concrete chat request with the upstream connection
refused. -/
theorem c6_upstream_error_502_witness :
    (proxyModel "/v1/chat/completions" (J.obj [("messages", J.arr [])])
        (.err "ConnectError") (fun _ => false) 1000000).1
      = .resp 502 (.json (errorBody "ConnectError")) (some "application/json") ∧
    (∀ e ∈ (proxyModel "/v1/chat/completions" (J.obj [("messages", J.arr [])])
        (.err "ConnectError") (fun _ => false) 1000000).2, e.isOutput = false) ∧
    (∀ kvs, (J.obj [("messages", J.arr [])]) = J.obj kvs →
      ∃ v tr, (proxyModel "/v1/chat/completions" (J.obj [("messages", J.arr [])])
          (.err "ConnectError") (fun _ => false) 1000000).2 = [.input v tr]) :=
  c6_upstream_error_502 "/v1/chat/completions" (J.obj [("messages", J.arr [])])
    "ConnectError" (fun _ => false) 1000000 rfl

/-- C3 counterexample: with a JSON-object body and a logger whose write
raises, the handler raises instead of returning the upstream 200
response — the input-event write sits outside every `try`, so a log
error does propagate to the client, against the claim. -/
theorem c3_counterexample :
    proxyModel "/v1/chat/completions" (J.obj [("messages", J.arr [])])
      (.ok 200 (some "application/json") "RAW" (J.obj []) [])
      (fun _ => true) 1000000 = (.exception, []) ∧
    (∀ s b c, (Outcome.exception : Outcome) ≠ .resp s b c) :=
  ⟨rfl, fun _ _ _ h => Outcome.noConfusion h⟩

/-- C3 (amended): only the streaming tail swallows logging errors.  An
error while writing the input event aborts the request before dispatch;
an error while writing the buffered output event aborts it after
dispatch, discarding the upstream response; an error while writing the
streaming output event is swallowed and the streamed response is
returned unchanged. -/
theorem c3_log_error_propagation :
    (∀ (path : String) (kvs : List (String × J)) (up : UpstreamOutcome)
        (logFail : Nat → Bool) (maxp : Int), logFail 0 = true →
      proxyModel path (J.obj kvs) up logFail maxp = (.exception, [])) ∧
    (∀ (path : String) (kvs : List (String × J)) (st : Nat) (cty : Option String)
        (raw : String) (parsed : J) (chunks : List J) (logFail : Nat → Bool)
        (maxp : Int) (mr : J),
      logFail 0 = false → logFail 1 = true →
      shouldStream (J.obj kvs) = false →
      extractModelResponse parsed path = .ok (some mr) →
      (proxyModel path (J.obj kvs) (.ok st cty raw parsed chunks) logFail maxp).1
        = .exception) ∧
    (∀ (path : String) (reqJson : J) (st : Nat) (cty : Option String) (raw : String)
        (parsed : J) (chunks : List J) (logFail : Nat → Bool) (maxp : Int),
      logFail 0 = false → shouldStream reqJson = true →
      (proxyModel path reqJson (.ok st cty raw parsed chunks) logFail maxp).1
        = .resp st (.raw raw) cty) := by
  refine ⟨?_, ?_, ?_⟩
  · intro path kvs up logFail maxp h0
    simp [proxyModel, h0, inputPhase_obj_fail]
  · intro path kvs st cty raw parsed chunks logFail maxp mr h0 h1 hs hex
    obtain ⟨v, tr, hv⟩ := inputPhase_obj path kvs maxp
    obtain ⟨hd, c, t, rf, rfl⟩ := extractModelResponse_ok_some hex
    obtain ⟨v', tr', hv'⟩ := promptForLog_obj _ maxp
    have hmr : promptForLog (assistantRecord (getContentType path parsed) c t rf) maxp
        = (some v', tr') := hv'
    simp only [proxyModel, h0, hv, hs, hex, hmr]
    simp [h1]
  · intro path reqJson st cty raw parsed chunks logFail maxp h0 hs
    obtain ⟨evs, hevs, _⟩ := inputPhase_false_total path reqJson maxp
    simp [proxyModel, h0, hevs, hs]

/-- C3 amended witness: concrete runs exercising the three write
sites. -/
theorem c3_log_error_propagation_witness :
    proxyModel "/v1/chat/completions" (J.obj [("messages", J.arr [])])
      (.ok 200 (some "application/json") "RAW" (J.obj []) [])
      (fun _ => true) 1000000 = (.exception, []) ∧
    (proxyModel "/v1/completions" (J.obj [("prompt", J.str "p")])
      (.ok 200 (some "application/json") "RAW"
        (J.obj [("choices", J.arr [J.obj [("text", J.str "pong")]])]) [])
      (fun n => n == 1) 1000000).1 = .exception ∧
    (proxyModel "/v1/chat/completions" (J.obj [("stream", J.bool true)])
      (.ok 200 (some "text/event-stream") "data: [DONE]\n" J.null [])
      (fun n => n == 1) 1000000).1
      = .resp 200 (.raw "data: [DONE]\n") (some "text/event-stream") :=
  ⟨c3_log_error_propagation.1 "/v1/chat/completions" [("messages", J.arr [])]
      (.ok 200 (some "application/json") "RAW" (J.obj []) []) (fun _ => true) 1000000 rfl,
   c3_log_error_propagation.2.1 "/v1/completions" [("prompt", J.str "p")]
      200 (some "application/json") "RAW"
      (J.obj [("choices", J.arr [J.obj [("text", J.str "pong")]])]) []
      (fun n => n == 1) 1000000
      (assistantRecord "completion" (J.str "pong") J.null J.null) rfl rfl rfl rfl,
   c3_log_error_propagation.2.2 "/v1/chat/completions" (J.obj [("stream", J.bool true)])
      200 (some "text/event-stream") "data: [DONE]\n" J.null []
      (fun n => n == 1) 1000000 rfl rfl⟩

/-- C7: the claim that response extraction never raises is right about
the intent (every other branch of `_extract_model_response` guards
shapes with `isinstance` checks) but the embeddings branch omits the
check on `data[0]`: for the body `{"data": ["x"]}` on `/v1/embeddings`,
`data[0].get("embedding", [])` raises `AttributeError`, which escapes
the `except httpx.RequestError` clause and aborts pass-through; a
well-shaped embeddings body extracts fine. -/
theorem c7_embeddings_extraction_raises :
    extractModelResponse (J.obj [("data", J.arr [J.str "x"])]) "/v1/embeddings"
      = .error .attributeError ∧
    (proxyModel "/v1/embeddings" (J.obj [("input", J.str "q")])
      (.ok 200 (some "application/json") "RAW"
        (J.obj [("data", J.arr [J.str "x"])]) [])
      (fun _ => false) 1000000).1 = .exception ∧
    extractModelResponse
        (J.obj [("data", J.arr [J.obj [("embedding",
          J.arr [J.num 1, J.num 2, J.num 3])]])]) "/v1/embeddings"
      = .ok (some (assistantRecord "embedding"
          (J.str "embedding with 3 dimensions") J.null J.null)) :=
  ⟨rfl, rfl, rfl⟩

/-! ## Claims C4 and C9: streaming chat reconstruction -/

theorem lookupJ_setKV_self (m : List (String × J)) (k : String) (v : J) :
    lookupJ (setKV m k v) k = some v := by
  induction m with
  | nil => simp [setKV, lookupJ]
  | cons p rest ih =>
      by_cases hp : p.1 = k
      · simp [setKV, lookupJ, hp]
      · simp [setKV, lookupJ, hp, ih]

theorem lookupJ_setKV_ne (m : List (String × J)) {k k' : String} (h : k' ≠ k) (v : J) :
    lookupJ (setKV m k v) k' = lookupJ m k' := by
  induction m with
  | nil => simp [setKV, lookupJ, Ne.symm h]
  | cons p rest ih =>
      simp only [setKV]
      by_cases hp : p.1 = k
      · simp [lookupJ, hp, Ne.symm h]
      · simp [lookupJ, hp, ih]

theorem setKV_keys_of_present (m : List (String × J)) {k : String}
    (h : (lookupJ m k).isSome = true) (v : J) :
    (setKV m k v).map Prod.fst = m.map Prod.fst := by
  induction m with
  | nil => simp [lookupJ] at h
  | cons p rest ih =>
      by_cases hp : p.1 = k
      · simp [setKV, hp]
      · simp only [lookupJ, hp, if_neg] at h
        simp [setKV, hp, ih h]

theorem mem_setKV {m : List (String × J)} {k : String} {v : J} {p : String × J}
    (h : p ∈ setKV m k v) : p = (k, v) ∨ p ∈ m := by
  induction m with
  | nil => simpa [setKV] using h
  | cons q rest ih =>
      by_cases hq : q.1 = k
      · simp only [setKV, hq, if_pos] at h
        rcases List.mem_cons.mp h with h1 | h1
        · exact Or.inl h1
        · exact Or.inr (List.mem_cons_of_mem _ h1)
      · simp only [setKV, hq, if_neg, not_false_iff] at h
        rcases List.mem_cons.mp h with h1 | h1
        · exact Or.inr (by simp [h1])
        · rcases ih h1 with h2 | h2
          · exact Or.inl h2
          · exact Or.inr (List.mem_cons_of_mem _ h2)

theorem lookupJ_mem {m : List (String × J)} {k : String} {v : J}
    (h : lookupJ m k = some v) : (k, v) ∈ m := by
  induction m with
  | nil => cases h
  | cons p rest ih =>
      by_cases hp : p.1 = k
      · simp only [lookupJ, hp, if_pos] at h
        injection h with h
        have hpv : (k, v) = p := by
          rw [← hp, ← h]
        rw [hpv]
        exact List.mem_cons_self _ _
      · simp only [lookupJ, hp, if_neg, not_false_iff] at h
        exact List.mem_cons_of_mem _ (ih h)

theorem lookupJ_isSome_iff_mem (m : List (String × J)) (k : String) :
    (lookupJ m k).isSome = true ↔ k ∈ m.map Prod.fst := by
  induction m with
  | nil => simp [lookupJ]
  | cons p rest ih =>
      by_cases hp : p.1 = k
      · simp [lookupJ, hp]
      · simp [lookupJ, hp, ih, Ne.symm hp]

theorem lookupJ_append_of_none {m : List (String × J)} {k : String}
    (h : lookupJ m k = none) (l : List (String × J)) :
    lookupJ (m ++ l) k = lookupJ l k := by
  induction m with
  | nil => simp
  | cons p rest ih =>
      by_cases hp : p.1 = k
      · simp [lookupJ, hp] at h
      · simp only [lookupJ, hp, if_neg, not_false_iff] at h
        simpa [lookupJ, hp] using ih h

theorem lookupJ_append_of_some {m : List (String × J)} {k : String} {v : J}
    (h : lookupJ m k = some v) (l : List (String × J)) :
    lookupJ (m ++ l) k = some v := by
  induction m with
  | nil => cases h
  | cons p rest ih =>
      by_cases hp : p.1 = k
      · simp only [lookupJ, hp, if_pos] at h
        simpa [lookupJ, hp] using h
      · simp only [lookupJ, hp, if_neg, not_false_iff] at h
        simpa [lookupJ, hp] using ih h

theorem getKey_objSet_self {tc : J} (h : tc.isDict = true) (k : String) (v : J) :
    getKey (objSet tc k v) k = some v := by
  cases tc <;> simp [J.isDict] at h ⊢
  exact lookupJ_setKV_self _ k v

theorem getKey_objSet_ne {tc : J} (h : tc.isDict = true) {k k' : String}
    (hne : k' ≠ k) (v : J) :
    getKey (objSet tc k v) k' = getKey tc k' := by
  cases tc <;> simp [J.isDict] at h ⊢
  exact lookupJ_setKV_ne _ hne v

theorem objSet_isDict {tc : J} (h : tc.isDict = true) (k : String) (v : J) :
    (objSet tc k v).isDict = true := by
  cases tc <;> simp [J.isDict, objSet] at h ⊢

theorem joinStrParts_ok {vs : List J} {s : String}
    (h : joinStrParts vs = .ok s) : s = strConcat vs := by
  induction vs generalizing s with
  | nil =>
      simp only [joinStrParts] at h
      injection h with h
      simp [strConcat, ← h]
  | cons v rest ih =>
      cases v with
      | str t =>
          simp only [joinStrParts, bind, Except.bind] at h
          rcases hr : joinStrParts rest with e | r <;> rw [hr] at h
          · cases h
          · injection h with h
            rw [← h, strConcat, ih hr]
            rfl
      | null => cases h
      | bool b => cases h
      | num n => cases h
      | arr xs => cases h
      | obj kvs => cases h

theorem strConcat_append (xs ys : List J) :
    strConcat (xs ++ ys) = strConcat xs ++ strConcat ys := by
  induction xs with
  | nil => simp [strConcat]
  | cons x rest ih => simp [strConcat, ih, String.append_assoc]

theorem combineArgs_append (p : Option J) (vs ws : List J) :
    combineArgs p (vs ++ ws) = combineArgs (combineArgs p vs) ws := by
  simp [combineArgs, List.foldl_append]

theorem combineArgs_some_str (a : String) (vs : List J) :
    combineArgs (some (.str a)) vs = some (.str (a ++ strConcat vs)) := by
  induction vs generalizing a with
  | nil => simp [combineArgs, strConcat]
  | cons v rest ih =>
      simp only [combineArgs, List.foldl_cons] at ih ⊢
      rw [ih (a ++ strOf v)]
      simp [strConcat, String.append_assoc]

theorem combineArgs_none (vs : List J) :
    combineArgs none vs =
      (match vs with | [] => none | _ => some (.str (strConcat vs))) := by
  cases vs with
  | nil => rfl
  | cons v rest =>
      simp only [combineArgs, List.foldl_cons]
      have := combineArgs_some_str (strOf v) rest
      simp only [combineArgs] at this
      simpa [strConcat] using this

theorem entryWf_newToolCall (index : J) : entryWf (pyStr index) (newToolCall index) :=
  ⟨rfl, rfl, .obj [], rfl, rfl, Or.inl rfl⟩

theorem entryWf_objSet {κ : String} {tc : J} (hwf : entryWf κ tc) (k : String) (v : J)
    (h1 : k ≠ "index") (h2 : k ≠ "function") :
    entryWf κ (objSet tc k v) ∧ tcArgsField (objSet tc k v) = tcArgsField tc := by
  obtain ⟨hd, hidx, fn, hfn, hfnd, hargs⟩ := hwf
  have hd' := objSet_isDict hd k v
  have hfn' : getKey (objSet tc k v) "function" = some fn := by
    rw [getKey_objSet_ne hd (Ne.symm h2), hfn]
  have hidx' : getD (objSet tc k v) "index" J.null = getD tc "index" J.null := by
    simp [getD, getKey_objSet_ne hd (Ne.symm h1)]
  refine ⟨⟨hd', by rw [hidx']; exact hidx, fn, hfn', hfnd, hargs⟩, ?_⟩
  simp [tcArgsField, hfn', hfn]

theorem entryWf_set_name {κ : String} {tc fn : J} (hwf : entryWf κ tc)
    (hfn : getKey tc "function" = some fn) (v : J) :
    entryWf κ (objSet tc "function" (objSet fn "name" v)) ∧
    tcArgsField (objSet tc "function" (objSet fn "name" v)) = tcArgsField tc := by
  obtain ⟨hd, hidx, fn0, hfn0, hfnd, hargs⟩ := hwf
  rw [hfn0] at hfn
  injection hfn with hfe
  subst hfe
  have hd' := objSet_isDict hd "function" (objSet fn0 "name" v)
  have hidx' : getD (objSet tc "function" (objSet fn0 "name" v)) "index" J.null
      = getD tc "index" J.null := by
    simp [getD, getKey_objSet_ne hd (by decide : "index" ≠ "function")]
  have hfn' : getKey (objSet tc "function" (objSet fn0 "name" v)) "function"
      = some (objSet fn0 "name" v) := getKey_objSet_self hd _ _
  have hargs' : getKey (objSet fn0 "name" v) "arguments" = getKey fn0 "arguments" :=
    getKey_objSet_ne hfnd (by decide : "arguments" ≠ "name") v
  refine ⟨⟨hd', by rw [hidx']; exact hidx, objSet fn0 "name" v, hfn',
    objSet_isDict hfnd _ _, by rw [hargs']; exact hargs⟩, ?_⟩
  simp [tcArgsField, hfn', hfn0, hargs']

theorem entryWf_set_args {κ : String} {tc fn : J} (hwf : entryWf κ tc)
    (hfn : getKey tc "function" = some fn) (s : String) :
    entryWf κ (objSet tc "function" (objSet fn "arguments" (.str s))) ∧
    tcArgsField (objSet tc "function" (objSet fn "arguments" (.str s)))
      = some (.str s) := by
  obtain ⟨hd, hidx, fn0, hfn0, hfnd, hargs⟩ := hwf
  rw [hfn0] at hfn
  injection hfn with hfe
  subst hfe
  have hd' := objSet_isDict hd "function" (objSet fn0 "arguments" (.str s))
  have hidx' : getD (objSet tc "function" (objSet fn0 "arguments" (.str s))) "index" J.null
      = getD tc "index" J.null := by
    simp [getD, getKey_objSet_ne hd (by decide : "index" ≠ "function")]
  have hfn' : getKey (objSet tc "function" (objSet fn0 "arguments" (.str s))) "function"
      = some (objSet fn0 "arguments" (.str s)) := getKey_objSet_self hd _ _
  have hargs' : getKey (objSet fn0 "arguments" (.str s)) "arguments" = some (.str s) :=
    getKey_objSet_self hfnd _ _
  refine ⟨⟨hd', by rw [hidx']; exact hidx, objSet fn0 "arguments" (.str s), hfn',
    objSet_isDict hfnd _ _, Or.inr ⟨s, hargs'⟩⟩, ?_⟩
  simp [tcArgsField, hfn', hargs']

theorem funcArgs_of_wf {κ : String} {tc : J} (hwf : entryWf κ tc) :
    ∃ a : String, getD (getD tc "function" (.obj [])) "arguments" (.str "") = .str a ∧
      ((tcArgsField tc = none ∧ a = "") ∨ tcArgsField tc = some (.str a)) := by
  obtain ⟨hd, hidx, fn, hfn, hfnd, hargs⟩ := hwf
  have hgd : getD tc "function" (.obj []) = fn := by simp [getD, hfn]
  rcases hargs with hnone | ⟨s, hs⟩
  · exact ⟨"", by simp [getD, hfn, hnone], Or.inl ⟨by simp [tcArgsField, hfn, hnone], rfl⟩⟩
  · exact ⟨s, by simp [getD, hfn, hs], Or.inr (by simp [tcArgsField, hfn, hs])⟩

theorem tcMap1_lookup_self (m : List (String × J)) (idxStr : String) (index : J) :
    lookupJ (if (lookupJ m idxStr).isSome then m
             else m ++ [(idxStr, newToolCall index)]) idxStr
      = some ((lookupJ m idxStr).getD (newToolCall index)) := by
  rcases hl : lookupJ m idxStr with _ | v
  · simp only [hl, Option.isSome_none, Bool.false_eq_true, if_false]
    rw [lookupJ_append_of_none hl]
    simp [lookupJ]
  · simp [hl, lookupJ_append_of_some]

theorem tcMap1_keys (m : List (String × J)) (idxStr : String) (index : J) :
    (if (lookupJ m idxStr).isSome then m
     else m ++ [(idxStr, newToolCall index)]).map Prod.fst
      = addNewKey (m.map Prod.fst) idxStr := by
  by_cases hp : (lookupJ m idxStr).isSome
  · rw [if_pos hp, addNewKey, if_pos ((lookupJ_isSome_iff_mem m idxStr).mp hp)]
  · rw [if_neg hp, addNewKey,
      if_neg (fun hm => hp ((lookupJ_isSome_iff_mem m idxStr).mpr hm))]
    simp

theorem tcMap1_lookup_ne (m : List (String × J)) (idxStr : String) (index : J)
    {k : String} (h : k ≠ idxStr) :
    lookupJ (if (lookupJ m idxStr).isSome then m
             else m ++ [(idxStr, newToolCall index)]) k = lookupJ m k := by
  by_cases hp : (lookupJ m idxStr).isSome
  · rw [if_pos hp]
  · rw [if_neg hp]
    rcases hl : lookupJ m k with _ | v
    · rw [lookupJ_append_of_none hl]
      simp [lookupJ, Ne.symm h]
    · rw [lookupJ_append_of_some hl]

theorem tcMap1_mem (m : List (String × J)) (idxStr : String) (index : J)
    {p : String × J}
    (h : p ∈ (if (lookupJ m idxStr).isSome then m
              else m ++ [(idxStr, newToolCall index)])) :
    p ∈ m ∨ p = (idxStr, newToolCall index) := by
  by_cases hp : (lookupJ m idxStr).isSome
  · rw [if_pos hp] at h
    exact Or.inl h
  · rw [if_neg hp] at h
    rcases List.mem_append.mp h with h1 | h1
    · exact Or.inl h1
    · exact Or.inr (by simpa using h1)

theorem combineArgs_nil (p : Option J) : combineArgs p [] = p := rfl

theorem entryWf_condSet {κ : String} {t : J} (hwf : entryWf κ t) (cond : Bool)
    (k : String) (v : J) (h1 : k ≠ "index") (h2 : k ≠ "function") :
    entryWf κ (if cond = true then objSet t k v else t) ∧
    tcArgsField (if cond = true then objSet t k v else t) = tcArgsField t := by
  by_cases hc : cond = true
  · rw [if_pos hc]
    exact entryWf_objSet hwf k v h1 h2
  · rw [if_neg hc]
    exact ⟨hwf, rfl⟩

theorem setKV_final {m : List (String × J)} {idxStr : String} {index tcF : J}
    (hwfm : mapWf m) (hidxkey : pyStr index = idxStr) (hwfF : entryWf idxStr tcF) :
    mapWf (setKV (if (lookupJ m idxStr).isSome then m
                  else m ++ [(idxStr, newToolCall index)]) idxStr tcF) ∧
    (setKV (if (lookupJ m idxStr).isSome then m
            else m ++ [(idxStr, newToolCall index)]) idxStr tcF).map Prod.fst
      = addNewKey (m.map Prod.fst) idxStr ∧
    argsAt (setKV (if (lookupJ m idxStr).isSome then m
                   else m ++ [(idxStr, newToolCall index)]) idxStr tcF) idxStr
      = tcArgsField tcF ∧
    (∀ k, k ≠ idxStr →
      argsAt (setKV (if (lookupJ m idxStr).isSome then m
                     else m ++ [(idxStr, newToolCall index)]) idxStr tcF) k
        = argsAt m k) := by
  refine ⟨?_, ?_, ?_, ?_⟩
  · intro p hp
    rcases mem_setKV hp with h1 | h1
    · rw [h1]
      exact hwfF
    · rcases tcMap1_mem m idxStr index h1 with h2 | h2
      · exact hwfm p h2
      · rw [h2]
        exact hidxkey ▸ entryWf_newToolCall index
  · rw [setKV_keys_of_present _ (by rw [tcMap1_lookup_self]; rfl) tcF,
      tcMap1_keys]
  · simp [argsAt, lookupJ_setKV_self]
  · intro k hk
    simp [argsAt, lookupJ_setKV_ne _ hk, tcMap1_lookup_ne m idxStr index hk]

theorem processTc_finish {m m' : List (String × J)} {tc idx : J} {key : String}
    (hI : getD tc "index" J.null = idx) (hK : pyStr idx = key)
    (hdict : tc.isDict = true) (hnull : idx.isNull = false)
    (hwf : mapWf m) {pF : J} (hwfF : entryWf key pF)
    (hm' : m' = setKV (if (lookupJ m key).isSome then m
                       else m ++ [(key, newToolCall idx)]) key pF)
    (hvs : tcArgsField pF = combineArgs (argsAt m key) (argArrivalsOf tc)) :
    mapWf m' ∧
    m'.map Prod.fst = (if tcRelevant tc = true then addNewKey (m.map Prod.fst) (tcKey tc)
                       else m.map Prod.fst) ∧
    ∀ k, argsAt m' k = combineArgs (argsAt m k)
      (if tcRelevant tc && (tcKey tc == k) then argArrivalsOf tc else []) := by
  have hrel : tcRelevant tc = true := by simp [tcRelevant, hdict, hI, hnull]
  have hkey : tcKey tc = key := by simp [tcKey, hI, hK]
  obtain ⟨w1, w2, w3, w4⟩ := setKV_final hwf hK hwfF
  subst hm'
  refine ⟨w1, by rw [hrel, if_pos rfl, hkey]; exact w2, ?_⟩
  intro k
  by_cases hk : k = key
  · subst hk
    simp only [hrel, hkey, beq_self_eq_true, Bool.and_self, if_true, w3, hvs]
  · have hbk : (key == k) = false := by
      simp [Ne.symm hk]
    rw [w4 k hk]
    simp [hrel, hkey, hbk, combineArgs_nil]

theorem processTc_ok {m m' : List (String × J)} {tc : J}
    (h : processTc m tc = .ok m') (hwf : mapWf m) :
    mapWf m' ∧
    m'.map Prod.fst = (if tcRelevant tc = true then addNewKey (m.map Prod.fst) (tcKey tc)
                       else m.map Prod.fst) ∧
    ∀ k, argsAt m' k = combineArgs (argsAt m k)
      (if tcRelevant tc && (tcKey tc == k) then argArrivalsOf tc else []) := by
  simp only [processTc] at h
  by_cases hdict : tc.isDict = true
  case neg =>
    have hrel : tcRelevant tc = false := by simp [tcRelevant, hdict]
    rw [if_pos (by simp [hdict])] at h
    injection h with h
    subst h
    refine ⟨hwf, by simp [hrel], ?_⟩
    intro k
    simp [hrel, combineArgs_nil]
  case pos =>
  rw [if_neg (by simp [hdict])] at h
  by_cases hnull : (getD tc "index" J.null).isNull = true
  case pos =>
    have hrel : tcRelevant tc = false := by simp [tcRelevant, hnull]
    rw [if_pos hnull] at h
    injection h with h
    subst h
    refine ⟨hwf, by simp [hrel], ?_⟩
    intro k
    simp [hrel, combineArgs_nil]
  case neg =>
  rw [if_neg hnull] at h
  generalize hI : getD tc "index" J.null = idx at h
  rw [hI] at hnull
  have hnull' : idx.isNull = false := by simpa using hnull
  generalize hK : pyStr idx = key at h
  rw [tcMap1_lookup_self m key idx] at h
  simp only [Option.getD_some] at h
  have w0 : entryWf key ((lookupJ m key).getD (newToolCall idx)) := by
    rcases hl : lookupJ m key with _ | v
    · simpa using hK ▸ entryWf_newToolCall idx
    · simpa using hwf (key, v) (lookupJ_mem hl)
  have hargs0 : tcArgsField ((lookupJ m key).getD (newToolCall idx)) = argsAt m key := by
    rcases hl : lookupJ m key with _ | v
    · simp [argsAt, hl]
      rfl
    · simp [argsAt, hl]
  generalize hP0 : (lookupJ m key).getD (newToolCall idx) = p0 at h w0 hargs0
  have w1 := entryWf_condSet w0 (objMem tc "id" && (getD tc "id" J.null).truthy)
    "id" (getD tc "id" J.null) (by decide) (by decide)
  generalize hP1 : (if (objMem tc "id" && (getD tc "id" J.null).truthy) = true
      then objSet p0 "id" (getD tc "id" J.null) else p0) = p1 at h w1
  have w2 := entryWf_condSet w1.1 (objMem tc "type") "type" (getD tc "type" J.null)
    (by decide) (by decide)
  generalize hP2 : (if objMem tc "type" = true
      then objSet p1 "type" (getD tc "type" J.null) else p1) = p2 at h w2
  have hargs2 : tcArgsField p2 = argsAt m key := by
    rw [w2.2, w1.2, hargs0]
  rcases hfn : getKey tc "function" with _ | fn
  · simp only [hfn] at h
    injection h with h
    exact processTc_finish hI hK hdict hnull' hwf w2.1 h.symm
      (by simp [argArrivalsOf, hfn, combineArgs_nil, hargs2])
  · simp only [hfn] at h
    by_cases hfnd : fn.isDict = true
    case neg =>
      rw [if_neg hfnd] at h
      injection h with h
      exact processTc_finish hI hK hdict hnull' hwf w2.1 h.symm
        (by simp [argArrivalsOf, hfn, hfnd, combineArgs_nil, hargs2])
    case pos =>
    rw [if_pos hfnd] at h
    obtain ⟨hd2, hidx2, fn2, hfn2, hfn2d, hfn2args⟩ := w2.1
    have w2' : entryWf key p2 := ⟨hd2, hidx2, fn2, hfn2, hfn2d, hfn2args⟩
    have hgd2 : getD p2 "function" (J.obj []) = fn2 := by simp [getD, hfn2]
    by_cases hname : objMem fn "name" = true
    case pos =>
      rw [if_pos hname] at h
      rw [hgd2] at h
      have w3 := entryWf_set_name w2' hfn2 (getD fn "name" J.null)
      generalize hP3 : objSet p2 "function" (objSet fn2 "name" (getD fn "name" J.null))
        = p3 at h w3
      have hargs3 : tcArgsField p3 = argsAt m key := by rw [w3.2, hargs2]
      obtain ⟨hd3, hidx3, fn3, hfn3, hfn3d, hfn3args⟩ := w3.1
      have w3' : entryWf key p3 := ⟨hd3, hidx3, fn3, hfn3, hfn3d, hfn3args⟩
      have hgd3 : getD p3 "function" (J.obj []) = fn3 := by simp [getD, hfn3]
      rw [hgd3] at h
      by_cases hargm : objMem fn "arguments" = true
      case neg =>
        rw [if_neg hargm] at h
        injection h with h
        exact processTc_finish hI hK hdict hnull' hwf w3' h.symm
          (by simp [argArrivalsOf, hfn, hfnd, hargm, combineArgs_nil, hargs3])
      case pos =>
        rw [if_pos hargm] at h
        obtain ⟨a, hfa, hdisj⟩ := funcArgs_of_wf w3'
        rw [hgd3] at hfa
        rw [hfa] at h
        rcases harr : getD fn "arguments" J.null with _ | b | n | b | xs | kvs
          <;> rw [harr] at h
        case str =>
          injection h with h
          obtain ⟨wF, haF⟩ := entryWf_set_args w3' hfn3 (a ++ b)
          refine processTc_finish hI hK hdict hnull' hwf wF h.symm ?_
          rw [haF]
          have harrs : argArrivalsOf tc = [J.str b] := by
            simp [argArrivalsOf, hfn, hfnd, hargm, harr]
          rw [harrs]
          rcases hdisj with ⟨hnone, ha⟩ | hsome
          · rw [← hargs3, hnone, ha]
            simp [combineArgs, strOf]
          · rw [← hargs3, hsome]
            simp [combineArgs, strOf]
        all_goals cases h
    case neg =>
      rw [if_neg hname] at h
      rw [hgd2] at h
      by_cases hargm : objMem fn "arguments" = true
      case neg =>
        rw [if_neg hargm] at h
        injection h with h
        exact processTc_finish hI hK hdict hnull' hwf w2' h.symm
          (by simp [argArrivalsOf, hfn, hfnd, hargm, combineArgs_nil, hargs2])
      case pos =>
        rw [if_pos hargm] at h
        obtain ⟨a, hfa, hdisj⟩ := funcArgs_of_wf w2'
        rw [hgd2] at hfa
        rw [hfa] at h
        rcases harr : getD fn "arguments" J.null with _ | b | n | b | xs | kvs
          <;> rw [harr] at h
        case str =>
          injection h with h
          obtain ⟨wF, haF⟩ := entryWf_set_args w2' hfn2 (a ++ b)
          refine processTc_finish hI hK hdict hnull' hwf wF h.symm ?_
          rw [haF]
          have harrs : argArrivalsOf tc = [J.str b] := by
            simp [argArrivalsOf, hfn, hfnd, hargm, harr]
          rw [harrs]
          rcases hdisj with ⟨hnone, ha⟩ | hsome
          · rw [← hargs2, hnone, ha]
            simp [combineArgs, strOf]
          · rw [← hargs2, hsome]
            simp [combineArgs, strOf]
        all_goals cases h

theorem processTcs_ok : ∀ {tcs : List J} {m m' : List (String × J)},
    processTcs m tcs = .ok m' → mapWf m →
    mapWf m' ∧
    m'.map Prod.fst = (tcs.filter tcRelevant).foldl
      (fun ks tc => addNewKey ks (tcKey tc)) (m.map Prod.fst) ∧
    ∀ k, argsAt m' k = combineArgs (argsAt m k)
      (((tcs.filter tcRelevant).filter (fun tc => tcKey tc == k)).flatMap argArrivalsOf) := by
  intro tcs
  induction tcs with
  | nil =>
      intro m m' h hwf
      injection h with h
      subst h
      exact ⟨hwf, by simp, fun k => by simp [combineArgs_nil]⟩
  | cons tc rest ih =>
      intro m m' h hwf
      simp only [processTcs, bind, Except.bind] at h
      rcases hstep : processTc m tc with e | m1 <;> rw [hstep] at h
      · cases h
      · obtain ⟨hwf1, hkeys1, hargs1⟩ := processTc_ok hstep hwf
        obtain ⟨hwf2, hkeys2, hargs2⟩ := ih h hwf1
        refine ⟨hwf2, ?_, ?_⟩
        · rw [hkeys2, hkeys1]
          by_cases hrel : tcRelevant tc = true
          · simp [List.filter_cons, hrel]
          · simp [List.filter_cons, hrel]
        · intro k
          rw [hargs2 k, hargs1 k]
          rw [← combineArgs_append]
          by_cases hrel : tcRelevant tc = true
          · by_cases hk : tcKey tc == k
            · simp [List.filter_cons, hrel, hk]
            · simp only [Bool.not_eq_true] at hk
              simp [List.filter_cons, hrel, hk]
          · simp [List.filter_cons, hrel]

theorem specContentParts_cons (c : J) (rest : List J) :
    specContentParts (c :: rest) = (contentDeltaOf c).toList ++ specContentParts rest := by
  cases h : contentDeltaOf c <;> simp [specContentParts, List.filterMap_cons, h]

theorem allTcDeltas_cons (c : J) (rest : List J) :
    allTcDeltas (c :: rest) = tcDeltasOfChunk c ++ allTcDeltas rest := by
  simp [allTcDeltas]

theorem specArgArrivals_cons (c : J) (rest : List J) (k : String) :
    specArgArrivals (c :: rest) k = chunkArgArrivals c k ++ specArgArrivals rest k := by
  simp [specArgArrivals, allTcDeltas_cons, chunkArgArrivals, List.filter_append]

theorem processChunk_ok {st st' : PState} {c : J}
    (h : processChunk st c = .ok st') (hwf : mapWf st.tcParts) :
    mapWf st'.tcParts ∧
    st'.parts = st.parts ++ (contentDeltaOf c).toList ∧
    st'.tcParts.map Prod.fst = (tcDeltasOfChunk c).foldl
      (fun ks tc => addNewKey ks (tcKey tc)) (st.tcParts.map Prod.fst) ∧
    ∀ k, argsAt st'.tcParts k
      = combineArgs (argsAt st.tcParts k) (chunkArgArrivals c k) := by
  simp only [processChunk] at h
  by_cases hdict : c.isDict = true
  case neg =>
    rw [if_pos (by simp [hdict])] at h
    injection h with h
    subst h
    refine ⟨hwf, ?_, ?_, ?_⟩ <;>
      simp [contentDeltaOf, deltaOf, hdict, tcDeltasOfChunk, chunkArgArrivals,
        combineArgs_nil]
  case pos =>
  rw [if_neg (by simp [hdict])] at h
  rcases hch : getD c "choices" (J.arr []) with _ | b | n | s | xs | kvs <;> rw [hch] at h
  case arr =>
    cases xs with
    | nil =>
        dsimp only at h
        injection h with h
        subst h
        refine ⟨hwf, ?_, ?_, ?_⟩ <;>
          simp [contentDeltaOf, deltaOf, hdict, hch, tcDeltasOfChunk, chunkArgArrivals,
            combineArgs_nil]
    | cons fc rest =>
        dsimp only at h
        by_cases hfc : fc.isDict = true
        case neg =>
          rw [if_neg hfc] at h
          injection h with h
          subst h
          refine ⟨hwf, ?_, ?_, ?_⟩ <;>
            simp [contentDeltaOf, deltaOf, hdict, hch, hfc, tcDeltasOfChunk,
              chunkArgArrivals, combineArgs_nil]
        case pos =>
          rw [if_pos hfc] at h
          rcases hdl : getKey fc "delta" with _ | delta <;> rw [hdl] at h <;>
            dsimp only at h
          · injection h with h
            subst h
            refine ⟨hwf, ?_, ?_, ?_⟩ <;>
              simp [contentDeltaOf, deltaOf, hdict, hch, hfc, hdl, tcDeltasOfChunk,
                chunkArgArrivals, combineArgs_nil]
          · by_cases hdd : delta.isDict = true
            case neg =>
              rw [if_neg hdd] at h
              injection h with h
              subst h
              refine ⟨hwf, ?_, ?_, ?_⟩ <;>
                simp [contentDeltaOf, deltaOf, hdict, hch, hfc, hdl, hdd,
                  tcDeltasOfChunk, chunkArgArrivals, combineArgs_nil]
            case pos =>
              rw [if_pos hdd] at h
              have hdelta : deltaOf c = some delta := by
                simp [deltaOf, hdict, hch, hfc, hdl, hdd]
              have hparts1 : (if (objMem delta "content"
                    && (getD delta "content" J.null).truthy) = true
                  then { st with parts := st.parts ++ [getD delta "content" J.null] }
                  else st).parts = st.parts ++ (contentDeltaOf c).toList := by
                by_cases hcd : (objMem delta "content"
                    && (getD delta "content" J.null).truthy) = true
                · simp [hcd, contentDeltaOf, hdelta]
                · simp [hcd, contentDeltaOf, hdelta,
                    (by simpa using hcd : (objMem delta "content"
                      && (getD delta "content" J.null).truthy) = false)]
              have htc1 : (if (objMem delta "content"
                    && (getD delta "content" J.null).truthy) = true
                  then { st with parts := st.parts ++ [getD delta "content" J.null] }
                  else st).tcParts = st.tcParts := by
                by_cases hcd : (objMem delta "content"
                    && (getD delta "content" J.null).truthy) = true <;> simp [hcd]
              by_cases htm : objMem delta "tool_calls" = true
              case neg =>
                rw [if_neg htm] at h
                injection h with h
                subst h
                refine ⟨by rw [htc1]; exact hwf, hparts1, ?_, ?_⟩
                · rw [htc1]
                  simp [tcDeltasOfChunk, hdelta, htm]
                · intro k
                  rw [htc1]
                  simp [chunkArgArrivals, tcDeltasOfChunk, hdelta, htm, combineArgs_nil]
              case pos =>
                rw [if_pos htm] at h
                rcases htv : getD delta "tool_calls" J.null with _ | b | n | s | tcs | kvs
                  <;> rw [htv] at h <;> dsimp only at h
                case arr =>
                  simp only [bind, Except.bind] at h
                  rcases hpt : processTcs (if (objMem delta "content"
                        && (getD delta "content" J.null).truthy) = true
                      then { st with parts := st.parts ++ [getD delta "content" J.null] }
                      else st).tcParts tcs with e | mF <;> rw [hpt] at h
                  · cases h
                  · rw [htc1] at hpt
                    injection h with h
                    subst h
                    obtain ⟨hwfF, hkeysF, hargsF⟩ := processTcs_ok hpt hwf
                    have hdeltas : tcDeltasOfChunk c = tcs.filter tcRelevant := by
                      simp [tcDeltasOfChunk, hdelta, htm, htv]
                      rfl
                    refine ⟨hwfF, by simpa using hparts1, ?_, ?_⟩
                    · simpa [hdeltas] using hkeysF
                    · intro k
                      have : chunkArgArrivals c k
                          = ((tcs.filter tcRelevant).filter
                              (fun tc => tcKey tc == k)).flatMap argArrivalsOf := by
                        simp [chunkArgArrivals, hdeltas]
                      rw [this]
                      exact hargsF k
                all_goals
                  (injection h with h
                   subst h
                   refine ⟨by rw [htc1]; exact hwf, hparts1, ?_, ?_⟩
                   · rw [htc1]
                     simp [tcDeltasOfChunk, hdelta, htm, htv]
                   · intro k
                     rw [htc1]
                     simp [chunkArgArrivals, tcDeltasOfChunk, hdelta, htm, htv,
                       combineArgs_nil])
  all_goals
    (dsimp only at h
     injection h with h
     subst h
     refine ⟨hwf, ?_, ?_, ?_⟩ <;>
       simp [contentDeltaOf, deltaOf, hdict, hch, tcDeltasOfChunk, chunkArgArrivals,
         combineArgs_nil])

theorem processChunks_ok : ∀ {chunks : List J} {st st' : PState},
    processChunks st chunks = .ok st' → mapWf st.tcParts →
    mapWf st'.tcParts ∧
    st'.parts = st.parts ++ specContentParts chunks ∧
    st'.tcParts.map Prod.fst = (allTcDeltas chunks).foldl
      (fun ks tc => addNewKey ks (tcKey tc)) (st.tcParts.map Prod.fst) ∧
    ∀ k, argsAt st'.tcParts k
      = combineArgs (argsAt st.tcParts k) (specArgArrivals chunks k) := by
  intro chunks
  induction chunks with
  | nil =>
      intro st st' h hwf
      injection h with h
      subst h
      exact ⟨hwf, by simp [specContentParts], by simp [allTcDeltas],
        fun k => by simp [specArgArrivals, allTcDeltas, combineArgs_nil]⟩
  | cons c rest ih =>
      intro st st' h hwf
      simp only [processChunks, bind, Except.bind] at h
      rcases hstep : processChunk st c with e | st1 <;> rw [hstep] at h
      · cases h
      · obtain ⟨hwf1, hparts1, hkeys1, hargs1⟩ := processChunk_ok hstep hwf
        obtain ⟨hwf2, hparts2, hkeys2, hargs2⟩ := ih h hwf1
        refine ⟨hwf2, ?_, ?_, ?_⟩
        · rw [hparts2, hparts1, specContentParts_cons, List.append_assoc]
        · rw [hkeys2, hkeys1, allTcDeltas_cons, List.foldl_append]
        · intro k
          rw [hargs2 k, hargs1 k, specArgArrivals_cons, combineArgs_append]

theorem addNewKey_nodup {ks : List String} (h : ks.Nodup) (k : String) :
    (addNewKey ks k).Nodup := by
  by_cases hk : k ∈ ks
  · simpa [addNewKey, hk] using h
  · simp [addNewKey, hk, List.nodup_append, h]

theorem foldl_addNewKey_nodup (l : List J) :
    ∀ {ks : List String}, ks.Nodup →
      (l.foldl (fun ks tc => addNewKey ks (tcKey tc)) ks).Nodup := by
  induction l with
  | nil => intro ks h; simpa
  | cons tc rest ih =>
      intro ks h
      exact ih (addNewKey_nodup h (tcKey tc))

theorem lookupJ_of_mem_nodup : ∀ {m : List (String × J)} {k : String} {v : J},
    (m.map Prod.fst).Nodup → (k, v) ∈ m → lookupJ m k = some v := by
  intro m
  induction m with
  | nil => intro k v _ h; cases h
  | cons p rest ih =>
      intro k v hnd hm
      rcases List.mem_cons.mp hm with h1 | h1
      · rw [← h1]
        simp [lookupJ]
      · have hk : p.1 ≠ k := by
          intro he
          have hmem : k ∈ rest.map Prod.fst :=
            List.mem_map.mpr ⟨(k, v), h1, rfl⟩
          simp only [List.map_cons, List.nodup_cons] at hnd
          exact hnd.1 (by rw [he]; exact hmem)
        simp only [lookupJ, hk, if_neg, not_false_iff]
        exact ih (by simpa using hnd.of_cons) h1

theorem parse_ok_inv {chunks : List J} {r : StreamResult}
    (h : parseStreamingChatCompletion chunks = .ok (some r)) :
    ∃ st : PState,
      st.parts = specContentParts chunks ∧
      st.tcParts.map Prod.fst = firstOccKeys chunks ∧
      mapWf st.tcParts ∧
      (∀ k, argsAt st.tcParts k = specArgsJ chunks k) ∧
      (r.content = none ∧ st.parts = [] ∨
        ∃ s, r.content = some s ∧ s = strConcat st.parts) ∧
      (r.toolCalls = none ∨ r.toolCalls = some (st.tcParts.map Prod.snd)) := by
  simp only [parseStreamingChatCompletion, bind, Except.bind, pure, Except.pure] at h
  rcases hst : processChunks ⟨[], []⟩ chunks with e | st <;> rw [hst] at h <;>
    dsimp only at h
  · cases h
  obtain ⟨hwf, hparts, hkeys, hargs⟩ := processChunks_ok hst (by intro p hp; simp at hp)
  have hcases : (r.content = none ∧ st.parts = [] ∨
      ∃ s, r.content = some s ∧ s = strConcat st.parts) ∧
      (r.toolCalls = none ∨ r.toolCalls = some (st.tcParts.map Prod.snd)) := by
    by_cases hpe : st.parts.isEmpty = true
    · rw [if_pos hpe] at h
      by_cases hte : st.tcParts.isEmpty = true
      · have hcond : ((none : Option String).isNone
            && (if st.tcParts.isEmpty = true then none
                else some (st.tcParts.map Prod.snd)).isNone) = true := by
          rw [if_pos hte]
          rfl
        rw [hcond] at h
        simp at h
      · have hcond : ((none : Option String).isNone
            && (if st.tcParts.isEmpty = true then none
                else some (st.tcParts.map Prod.snd)).isNone) = false := by
          rw [if_neg hte]
          rfl
        rw [hcond, if_neg (by simp : ¬(false = true))] at h
        injection h with h
        injection h with h
        refine ⟨Or.inl ⟨by rw [← h], by simpa using hpe⟩, Or.inr ?_⟩
        rw [← h]
        show (if st.tcParts.isEmpty = true then none
              else some (st.tcParts.map Prod.snd)) = some (st.tcParts.map Prod.snd)
        rw [if_neg hte]
    · rw [if_neg hpe] at h
      rcases hj : joinStrParts st.parts with e | s <;> rw [hj] at h <;>
        dsimp only at h
      · cases h
      · have hcond : ((some s).isNone
            && (if st.tcParts.isEmpty = true then none
                else some (st.tcParts.map Prod.snd)).isNone) = false := rfl
        rw [hcond, if_neg (by simp : ¬(false = true))] at h
        injection h with h
        injection h with h
        refine ⟨Or.inr ⟨s, by rw [← h], joinStrParts_ok hj⟩, ?_⟩
        by_cases hte : st.tcParts.isEmpty = true
        · refine Or.inl ?_
          rw [← h]
          show (if st.tcParts.isEmpty = true then none
                else some (st.tcParts.map Prod.snd)) = none
          rw [if_pos hte]
        · refine Or.inr ?_
          rw [← h]
          show (if st.tcParts.isEmpty = true then none
                else some (st.tcParts.map Prod.snd)) = some (st.tcParts.map Prod.snd)
          rw [if_neg hte]
  refine ⟨st, by simpa using hparts, by simpa using hkeys, hwf, ?_, hcases.1, hcases.2⟩
  intro k
  rw [hargs k]
  have hz : argsAt ([] : List (String × J)) k = none := rfl
  rw [hz, combineArgs_none]
  cases harr : specArgArrivals chunks k <;> simp [specArgsJ, harr]

/-- C4: on a successful streaming-chat reconstruction, the result's
`content` is the concatenation, in arrival order, of the truthy
`delta.content` values (present exactly when at least one such delta
arrived), and every reconstructed tool call's `function.arguments` is
the concatenation, in arrival order, of the `arguments` fragments
delivered for its index key. -/
theorem c4_stream_reconstruction (chunks : List J) (r : StreamResult)
    (h : parseStreamingChatCompletion chunks = .ok (some r)) :
    (∀ s, r.content = some s → s = strConcat (specContentParts chunks)) ∧
    (specContentParts chunks ≠ [] → ∃ s, r.content = some s) ∧
    (∀ tcs, r.toolCalls = some tcs → ∀ tc ∈ tcs,
      tcArgsField tc = specArgsJ chunks (pyStr (tcIndexField tc))) := by
  obtain ⟨st, hparts, hkeys, hwf, hargs, hcon, htc⟩ := parse_ok_inv h
  refine ⟨?_, ?_, ?_⟩
  · intro s hs
    rcases hcon with ⟨hn, _⟩ | ⟨s', hs', he⟩
    · rw [hn] at hs
      cases hs
    · rw [hs'] at hs
      injection hs with hs
      rw [← hs, he, hparts]
  · intro hne
    rcases hcon with ⟨_, hp⟩ | ⟨s, hs, _⟩
    · rw [hparts] at hp
      exact absurd hp hne
    · exact ⟨s, hs⟩
  · intro tcs htcs tc htcmem
    rcases htc with hnone | hsome
    · rw [hnone] at htcs
      cases htcs
    · rw [hsome] at htcs
      injection htcs with htcs
      subst htcs
      obtain ⟨p, hpmem, rfl⟩ := List.mem_map.mp htcmem
      obtain ⟨_, hidx, _⟩ := hwf p hpmem
      have hnodup : (st.tcParts.map Prod.fst).Nodup := by
        rw [hkeys]
        exact foldl_addNewKey_nodup _ List.nodup_nil
      have hlk : lookupJ st.tcParts p.1 = some p.2 :=
        lookupJ_of_mem_nodup hnodup (by simpa using hpmem)
      have hav : argsAt st.tcParts p.1 = tcArgsField p.2 := by
        simp [argsAt, hlk]
      have hkey : pyStr (tcIndexField p.2) = p.1 := hidx
      rw [hkey, ← hav, hargs p.1]

/-- C4 witness: the specification's streaming test scenario — content
`"Hel"`, `"lo"` and a tool call whose arguments arrive as `"14:"` then
`"1"`. -/
theorem c4_stream_reconstruction_witness :
    ("Hello" : String) = strConcat (specContentParts c4DemoChunks) ∧
    tcArgsField (J.obj [("index", J.num 0),
        ("function", J.obj [("name", J.str "f"), ("arguments", J.str "14:1")]),
        ("id", J.str "t1")])
      = specArgsJ c4DemoChunks (pyStr (tcIndexField (J.obj [("index", J.num 0),
          ("function", J.obj [("name", J.str "f"), ("arguments", J.str "14:1")]),
          ("id", J.str "t1")]))) :=
  ⟨(c4_stream_reconstruction c4DemoChunks
      ⟨some "Hello", some [J.obj [("index", J.num 0),
        ("function", J.obj [("name", J.str "f"), ("arguments", J.str "14:1")]),
        ("id", J.str "t1")]]⟩ rfl).1 "Hello" rfl,
   (c4_stream_reconstruction c4DemoChunks
      ⟨some "Hello", some [J.obj [("index", J.num 0),
        ("function", J.obj [("name", J.str "f"), ("arguments", J.str "14:1")]),
        ("id", J.str "t1")]]⟩ rfl).2.2
     [J.obj [("index", J.num 0),
        ("function", J.obj [("name", J.str "f"), ("arguments", J.str "14:1")]),
        ("id", J.str "t1")]] rfl
     (J.obj [("index", J.num 0),
        ("function", J.obj [("name", J.str "f"), ("arguments", J.str "14:1")]),
        ("id", J.str "t1")])
     (List.mem_singleton.mpr rfl)⟩

/-- C9 counterexample: deltas arriving with index 1 before index 0 are
reconstructed in that arrival order — the tool_calls list carries
indexes `[1, 0]`, which is not ascending. -/
theorem c9_counterexample :
    parseStreamingChatCompletion c9DemoChunks
      = .ok (some ⟨none, some
          [J.obj [("index", J.num 1),
                  ("function", J.obj [("arguments", J.str "b")])],
           J.obj [("index", J.num 0),
                  ("function", J.obj [("arguments", J.str "a")])]]⟩) ∧
    tcIndexInts [J.obj [("index", J.num 1),
                  ("function", J.obj [("arguments", J.str "b")])],
                 J.obj [("index", J.num 0),
                  ("function", J.obj [("arguments", J.str "a")])]] = [1, 0] ∧
    ¬ List.Chain' (· ≤ ·) ([1, 0] : List Int) :=
  ⟨rfl, rfl, by norm_num [List.chain'_cons]⟩

/-- C9 (amended): the reconstructed tool_calls list is ordered by first
arrival of each index key (Python dict insertion order), not by
ascending index: its `str(index)` keys equal the first-occurrence
sequence of the processed deltas. -/
theorem c9_first_arrival_order (chunks : List J) (r : StreamResult)
    (h : parseStreamingChatCompletion chunks = .ok (some r)) :
    ∀ tcs, r.toolCalls = some tcs →
      tcs.map (fun tc => pyStr (tcIndexField tc)) = firstOccKeys chunks := by
  obtain ⟨st, hparts, hkeys, hwf, hargs, hcon, htc⟩ := parse_ok_inv h
  intro tcs htcs
  rcases htc with hnone | hsome
  · rw [hnone] at htcs
    cases htcs
  · rw [hsome] at htcs
    injection htcs with htcs
    subst htcs
    rw [← hkeys, List.map_map]
    apply List.map_congr_left
    intro p hp
    exact (hwf p hp).2.1

/-- C9 amended witness: the two-delta out-of-order stream. -/
theorem c9_first_arrival_order_witness :
    ([J.obj [("index", J.num 1),
             ("function", J.obj [("arguments", J.str "b")])],
      J.obj [("index", J.num 0),
             ("function", J.obj [("arguments", J.str "a")])]].map
        (fun tc => pyStr (tcIndexField tc)))
      = firstOccKeys c9DemoChunks :=
  c9_first_arrival_order c9DemoChunks
    ⟨none, some [J.obj [("index", J.num 1),
                  ("function", J.obj [("arguments", J.str "b")])],
                 J.obj [("index", J.num 0),
                  ("function", J.obj [("arguments", J.str "a")])]]⟩ rfl
    [J.obj [("index", J.num 1),
            ("function", J.obj [("arguments", J.str "b")])],
     J.obj [("index", J.num 0),
            ("function", J.obj [("arguments", J.str "a")])]] rfl

end PromptLens
